import Mathlib

/-!
Verification of a first-order-logic backward-chaining engine
(`backward_chaining_fol.py`): term model, substitution application,
unification with occurs check, a knowledge base indexed by
(predicate name, arity), and the OR/AND backward-chaining search with
standardize-apart renaming and a visited-set loop guard.

The source's substitution application follows binding chains and therefore
diverges on cyclic substitutions, and the proof search itself can diverge;
those functions are embedded with an explicit fuel parameter.  A result of
`none` means the fuel ran out (the Python code would still be running);
`some r` means the source returns `r`.  All recursion is structural, so the
kernel can evaluate every definition on concrete inputs.
-/

set_option maxHeartbeats 1000000

namespace BC

/-- Terms and atoms of the engine: mirrors the Python classes `Variable`,
`Constant`, `Function`, `Predicate` (subclasses of `Expr`). -/
inductive Expr where
  | Variable (name : String)
  | Constant (name : String)
  | Function (name : String) (args : List Expr)
  | Predicate (name : String) (args : List Expr)

mutual

/-- Structural equality on terms, as defined by the source's `__eq__`
methods: same class, same name, and pointwise-equal arguments. -/
def beqE : Expr → Expr → Bool
  | .Variable n, .Variable m => n == m
  | .Constant n, .Constant m => n == m
  | .Function n as, .Function m bs => n == m && beqArgs as bs
  | .Predicate n as, .Predicate m bs => n == m && beqArgs as bs
  | _, _ => false

/-- Pointwise equality of argument lists. -/
def beqArgs : List Expr → List Expr → Bool
  | [], [] => true
  | a :: as, b :: bs => beqE a b && beqArgs as bs
  | _, _ => false

end

mutual

def beqE_correct : ∀ x y, beqE x y = true ↔ x = y
  | .Variable n, y => by
    cases y <;> simp [beqE]
  | .Constant n, y => by
    cases y <;> simp [beqE]
  | .Function n as, y => by
    cases y with
    | Function m bs =>
      have h := beqArgs_correct as bs
      simp [beqE, h]
    | Variable _ | Constant _ | Predicate _ _ => simp [beqE]
  | .Predicate n as, y => by
    cases y with
    | Predicate m bs =>
      have h := beqArgs_correct as bs
      simp [beqE, h]
    | Variable _ | Constant _ | Function _ _ => simp [beqE]

def beqArgs_correct : ∀ as bs, beqArgs as bs = true ↔ as = bs
  | [], bs => by cases bs <;> simp [beqArgs]
  | a :: as, bs => by
    cases bs with
    | nil => simp [beqArgs]
    | cons b bs =>
      have h1 := beqE_correct a b
      have h2 := beqArgs_correct as bs
      simp [beqArgs, h1, h2]

end

instance : DecidableEq Expr :=
  fun x y => decidable_of_iff _ (beqE_correct x y)

/-- Induction on `Expr` with a member-wise hypothesis for argument lists. -/
theorem Expr.indOn {P : Expr → Prop}
    (hv : ∀ n, P (.Variable n)) (hc : ∀ n, P (.Constant n))
    (hf : ∀ n args, (∀ a ∈ args, P a) → P (.Function n args))
    (hp : ∀ n args, (∀ a ∈ args, P a) → P (.Predicate n args)) :
    ∀ t, P t := by
  have key : ∀ s t, sizeOf t ≤ s → P t := by
    intro s
    induction s with
    | zero => intro t ht; cases t <;> simp_all
    | succ s ih =>
      intro t ht
      cases t with
      | Variable n => exact hv n
      | Constant n => exact hc n
      | Function n args =>
        refine hf n args (fun a ha => ih a ?_)
        have := List.sizeOf_lt_of_mem ha
        simp at ht; omega
      | Predicate n args =>
        refine hp n args (fun a ha => ih a ?_)
        have := List.sizeOf_lt_of_mem ha
        simp at ht; omega
  exact fun t => key (sizeOf t) t le_rfl

/-- The `name` attribute, defined on every term class of the source. -/
def exprName : Expr → String
  | .Variable n => n
  | .Constant n => n
  | .Function n _ => n
  | .Predicate n _ => n

/-- The `args` attribute of compound terms (`Function`/`Predicate`). -/
def exprArgs : Expr → List Expr
  | .Function _ as => as
  | .Predicate _ as => as
  | _ => []

/-- `is_variable(x)`. -/
def is_variable : Expr → Bool
  | .Variable _ => true
  | _ => false

/-- `is_compound(x)`: a `Function` or a `Predicate`. -/
def is_compound : Expr → Bool
  | .Function _ _ => true
  | .Predicate _ _ => true
  | _ => false

/-- A substitution θ: the Python dict mapping `Variable` to term.  Keys are
variable names (the source's `Variable` equality and hashing is name-based);
insertion order is kept, new bindings are appended at the end. -/
abbrev Subst := List (String × Expr)

/-- Dict lookup `theta[v]` / `v in theta`. -/
def lookupSubst : Subst → String → Option Expr
  | [], _ => none
  | (m, t) :: rest, n => if m = n then some t else lookupSubst rest n

mutual

/-- `substitute(x, theta)`: fully resolve a term under θ, following binding
chains at variables (`substitute(theta[x], theta)`), rebuilding compound
terms argument-wise, passing constants through.  Fueled: the source
diverges on cyclic chains. -/
def substitute : Nat → Expr → Subst → Option Expr
  | 0, _, _ => none
  | Nat.succ f, Expr.Variable n, θ =>
    match lookupSubst θ n with
    | some t => substitute f t θ
    | none => some (Expr.Variable n)
  | Nat.succ _, Expr.Constant n, _ => some (Expr.Constant n)
  | Nat.succ f, Expr.Function n args, θ =>
    match substList f args θ with
    | some us => some (Expr.Function n us)
    | none => none
  | Nat.succ f, Expr.Predicate n args, θ =>
    match substList f args θ with
    | some us => some (Expr.Predicate n us)
    | none => none

/-- Argument-wise substitution (the list comprehension of `substitute`). -/
def substList : Nat → List Expr → Subst → Option (List Expr)
  | 0, _, _ => none
  | Nat.succ _, [], _ => some []
  | Nat.succ f, a :: as, θ =>
    match substitute f a θ, substList f as θ with
    | some u, some us => some (u :: us)
    | _, _ => none

end

mutual

/-- `occurs_check(var, x, theta)`: resolve `x` under θ, then check whether
`var` equals the resolved term or occurs among the arguments of a resolved
compound term. -/
def occurs_check : Nat → Expr → Expr → Subst → Option Bool
  | 0, _, _, _ => none
  | Nat.succ f, var, x, θ =>
    match substitute (Nat.succ f) x θ with
    | none => none
    | some x2 =>
      if var = x2 then some true
      else
        match x2 with
        | .Function _ args => occursList f var args θ
        | .Predicate _ args => occursList f var args θ
        | _ => some false

/-- The `for arg in x.args` loop of `occurs_check`, with early exit on
`True`. -/
def occursList : Nat → Expr → List Expr → Subst → Option Bool
  | 0, _, _, _ => none
  | Nat.succ _, _, [], _ => some false
  | Nat.succ f, var, a :: as, θ =>
    match occurs_check f var a θ with
    | none => none
    | some true => some true
    | some false => occursList f var as θ

end

mutual

/-- `unify(x, y, theta)`: return the extended substitution, or `FAIL`.
The inner `some none` is the source's `None` result (failure); the outer
`none` is fuel exhaustion.  The source's `if theta is None` short-circuit
is rendered by the `Option` plumbing at the call sites. -/
def unify : Nat → Expr → Expr → Subst → Option (Option Subst)
  | 0, _, _, _ => none
  | Nat.succ f, x, y, θ =>
    if x = y then some (some θ)
    else
      match substitute (Nat.succ f) x θ, substitute (Nat.succ f) y θ with
      | some x2, some y2 =>
        if is_variable x2 then unify_var f x2 y2 θ
        else if is_variable y2 then unify_var f y2 x2 θ
        else
          match x2, y2 with
          | .Function n1 as, .Function n2 bs =>
            if n1 = n2 ∧ as.length = bs.length then unifyArgs f as bs θ
            else some none
          | .Predicate n1 as, .Predicate n2 bs =>
            if n1 = n2 ∧ as.length = bs.length then unifyArgs f as bs θ
            else some none
          | _, _ => some none
      | _, _ => none

/-- `unify_var(var, x, theta)`.  Only ever called by `unify` with `var` a
`Variable`; the catch-all final case is unreachable from `unify`. -/
def unify_var : Nat → Expr → Expr → Subst → Option (Option Subst)
  | 0, _, _, _ => none
  | Nat.succ f, var, x, θ =>
    match var with
    | .Variable n =>
      match lookupSubst θ n with
      | some t => unify f t x θ
      | none =>
        match (match x with | .Variable m => lookupSubst θ m | _ => none) with
        | some t => unify f var t θ
        | none =>
          match occurs_check (Nat.succ f) var x θ with
          | none => none
          | some true => some none
          | some false => some (some (θ ++ [(n, x)]))
    | _ => some none

/-- The `for x_arg, y_arg in zip(x.args, y.args)` loop of `unify`,
threading θ left to right and propagating failure. -/
def unifyArgs : Nat → List Expr → List Expr → Subst → Option (Option Subst)
  | 0, _, _, _ => none
  | Nat.succ _, [], _, θ => some (some θ)
  | Nat.succ _, _ :: _, [], θ => some (some θ)
  | Nat.succ f, a :: as, b :: bs, θ =>
    match unify f a b θ with
    | none => none
    | some none => some none
    | some (some θ2) => unifyArgs f as bs θ2

end

/-- A Horn clause `head <- body`; an empty body denotes a fact. -/
structure Clause where
  head : Expr
  body : List Expr
deriving DecidableEq

/-- The nested clause index: predicate name → arity → clause bucket,
modelling the source's `defaultdict(lambda: defaultdict(list))` with
dict insertion order. -/
abbrev Index := List (String × List (Nat × List Clause))

/-- A `KnowledgeBase`: insertion-ordered clause sequence plus the derived
(name, arity) index. -/
structure KnowledgeBase where
  clauses : List Clause
  index : Index

/-- Append `cl` to the arity bucket (creating it at the end on first use,
as a Python dict does). -/
def addToInner (ar : Nat) (cl : Clause) : List (Nat × List Clause) → List (Nat × List Clause)
  | [] => [(ar, [cl])]
  | (a, cls) :: rest =>
    if a = ar then (a, cls ++ [cl]) :: rest else (a, cls) :: addToInner ar cl rest

/-- Append `cl` to the (name, arity) bucket of the index. -/
def addToIndex (name : String) (ar : Nat) (cl : Clause) : Index → Index
  | [] => [(name, [(ar, [cl])])]
  | (n, inner) :: rest =>
    if n = name then (n, addToInner ar cl inner) :: rest
    else (n, inner) :: addToIndex name ar cl rest

/-- Assoc lookup in the outer index level. -/
def lookupIndex (idx : Index) (n : String) : Option (List (Nat × List Clause)) :=
  match idx with
  | [] => none
  | (m, inner) :: rest => if m = n then some inner else lookupIndex rest n

/-- Assoc lookup in the inner (arity) index level. -/
def lookupArity (inner : List (Nat × List Clause)) (a : Nat) : Option (List Clause) :=
  match inner with
  | [] => none
  | (b, cls) :: rest => if b = a then some cls else lookupArity rest a

/-- `KnowledgeBase.add_clause`: append to the clause sequence and to the
bucket keyed by (head name, head arity). -/
def add_clause (kb : KnowledgeBase) (cl : Clause) : KnowledgeBase :=
  { clauses := kb.clauses ++ [cl]
    index := addToIndex (exprName cl.head) (exprArgs cl.head).length cl kb.index }

/-- `KnowledgeBase.fetch_clauses_for_goal`: exact (name, arity) match;
empty sequence when no clause shares the signature. -/
def fetch_clauses_for_goal (kb : KnowledgeBase) (goal : Expr) : List Clause :=
  match lookupIndex kb.index (exprName goal) with
  | none => []
  | some inner =>
    match lookupArity inner (exprArgs goal).length with
    | none => []
    | some cls => cls

/-- The empty knowledge base (`KnowledgeBase.__init__`). -/
def emptyKB : KnowledgeBase := { clauses := [], index := [] }

/-- A knowledge base built by a sequence of `add_clause` calls. -/
def mkKB (cs : List Clause) : KnowledgeBase := cs.foldl add_clause emptyKB

mutual

/-- The source's `__repr__` of a term: variables and constants print as
their name, compounds as `name(arg1, arg2, ...)`. -/
def reprE : Expr → String
  | .Variable n => n
  | .Constant n => n
  | .Function n args => n ++ "(" ++ reprArgs args ++ ")"
  | .Predicate n args => n ++ "(" ++ reprArgs args ++ ")"

/-- `", ".join(map(str, args))`. -/
def reprArgs : List Expr → String
  | [] => ""
  | [a] => reprE a
  | a :: as => reprE a ++ ", " ++ reprArgs as

end

mutual

/-- The `rename` closure of `standardize_apart` at counter value `c`:
every variable named `v` becomes `_{v}{c}`; constants pass through. -/
def renameExpr (c : Nat) : Expr → Expr
  | .Variable n => .Variable ("_" ++ n ++ Nat.repr c)
  | .Constant n => .Constant n
  | .Function n args => .Function n (renameList c args)
  | .Predicate n args => .Predicate n (renameList c args)

def renameList (c : Nat) : List Expr → List Expr
  | [] => []
  | a :: as => renameExpr c a :: renameList c as

end

/-- `standardize_apart(clause)`: increments the global `_counter`, then
renames the clause's variables with the new counter value.  The counter is
passed and returned explicitly. -/
def standardize_apart (cl : Clause) (counter : Nat) : Clause × Nat :=
  (⟨renameExpr (counter + 1) cl.head, renameList (counter + 1) cl.body⟩, counter + 1)

mutual

/-- Names of the variables occurring in a term. -/
def varsE : Expr → List String
  | .Variable n => [n]
  | .Constant _ => []
  | .Function _ args => varsL args
  | .Predicate _ args => varsL args

def varsL : List Expr → List String
  | [] => []
  | a :: as => varsE a ++ varsL as

end

/-- Names of the variables occurring in a clause (head and body). -/
def clauseVars (cl : Clause) : List String :=
  varsE cl.head ++ varsL cl.body

mutual

/-- Plain simultaneous substitution of a total variable assignment: the
notion of clause instance used to state derivability. -/
def applyMap (σ : String → Expr) : Expr → Expr
  | .Variable n => σ n
  | .Constant n => .Constant n
  | .Function n args => .Function n (applyMapList σ args)
  | .Predicate n args => .Predicate n (applyMapList σ args)

def applyMapList (σ : String → Expr) : List Expr → List Expr
  | [] => []
  | a :: as => applyMap σ a :: applyMapList σ as

end

instance : BEq Expr := ⟨beqE⟩

instance : LawfulBEq Expr where
  eq_of_beq h := (beqE_correct _ _).mp h
  rfl := (beqE_correct _ _).mpr rfl

/-- The loop-guard key of `fol_bc_or`: `(repr(current), frozenset(theta.items()))`.
The θ component is kept as the binding list; key comparison treats it as a
set of items, as `frozenset` equality does. -/
abbrev VisitKey := String × Subst

/-- Equality of the item sets of two substitutions (dict keys are unique,
so `frozenset(θ1.items()) == frozenset(θ2.items())` is mutual inclusion). -/
def thetaSetEq (θ1 θ2 : Subst) : Bool :=
  θ1.all (fun p => θ2.contains p) && θ2.all (fun p => θ1.contains p)

/-- Membership of a loop-guard key in the visited set, with `frozenset`
equality on the θ component. -/
def visitedMem (key : VisitKey) (visited : List VisitKey) : Bool :=
  visited.any (fun k => k.1 == key.1 && thetaSetEq k.2 key.2)

mutual

/-- `fol_bc_or(kb, goal, theta, visited)`: resolve the goal under θ, stop
if the (current, θ) pair was already visited, otherwise try all candidate
clauses in stored order.  Results are the list of yielded substitutions in
generator order, threaded with the standardize-apart counter. -/
def fol_bc_or : Nat → KnowledgeBase → Expr → Subst → List VisitKey → Nat →
    Option (List Subst × Nat)
  | 0, _, _, _, _, _ => none
  | Nat.succ f, kb, goal, θ, visited, counter =>
    match substitute (Nat.succ f) goal θ with
    | none => none
    | some current =>
      if visitedMem (reprE current, θ) visited then some ([], counter)
      else
        fol_bc_clauses f kb current (fetch_clauses_for_goal kb goal) θ
          ((reprE current, θ) :: visited) counter
termination_by structural f => f

/-- The `for clause in kb.fetch_clauses_for_goal(goal)` loop of
`fol_bc_or`: standardize the clause apart, unify its head with `current`,
yield directly for facts, and delegate to `fol_bc_and` for rules. -/
def fol_bc_clauses : Nat → KnowledgeBase → Expr → List Clause → Subst →
    List VisitKey → Nat → Option (List Subst × Nat)
  | 0, _, _, _, _, _, _ => none
  | Nat.succ _, _, _, [], _, _, counter => some ([], counter)
  | Nat.succ f, kb, current, cl :: rest, θ, vis, counter =>
    match standardize_apart cl counter with
    | (cc, c2) =>
      match unify (Nat.succ f) cc.head current θ with
      | none => none
      | some none => fol_bc_clauses f kb current rest θ vis c2
      | some (some θ2) =>
        match (if cc.body.isEmpty then some ([θ2], c2)
               else fol_bc_and f kb cc.body θ2 vis c2) with
        | none => none
        | some (sols1, c3) =>
          match fol_bc_clauses f kb current rest θ vis c3 with
          | none => none
          | some (sols2, c4) => some (sols1 ++ sols2, c4)
termination_by structural f => f

/-- `fol_bc_and(kb, goals, theta, visited)`: prove the conjuncts left to
right; an empty goal list yields the current θ. -/
def fol_bc_and : Nat → KnowledgeBase → List Expr → Subst → List VisitKey → Nat →
    Option (List Subst × Nat)
  | 0, _, _, _, _, _ => none
  | Nat.succ _, _, [], θ, _, counter => some ([θ], counter)
  | Nat.succ f, kb, g :: rest, θ, vis, counter =>
    match fol_bc_or f kb g θ vis counter with
    | none => none
    | some (sols1, c2) => fol_bc_and_fold f kb rest sols1 vis c2
termination_by structural f => f

/-- The `for theta_prime in fol_bc_or(...)` loop of `fol_bc_and`: prove
the remaining conjuncts under each solution of the first one. -/
def fol_bc_and_fold : Nat → KnowledgeBase → List Expr → List Subst →
    List VisitKey → Nat → Option (List Subst × Nat)
  | 0, _, _, _, _, _ => none
  | Nat.succ _, _, _, [], _, counter => some ([], counter)
  | Nat.succ f, kb, rest, θp :: more, vis, counter =>
    match fol_bc_and f kb rest θp vis counter with
    | none => none
    | some (sols1, c2) =>
      match fol_bc_and_fold f kb rest more vis c2 with
      | none => none
      | some (sols2, c3) => some (sols1 ++ sols2, c3)
termination_by structural f => f

end

/-- `KnowledgeBase.ask` on a single goal: run `fol_bc_or` with the empty
substitution, empty visited set, and the module-level counter at its
initial value 0. -/
def ask (kb : KnowledgeBase) (fuel : Nat) (query : Expr) : Option (List Subst) :=
  (fol_bc_or fuel kb query [] [] 0).map Prod.fst

/-- `KnowledgeBase.ask` on a conjunctive query (a list of goals). -/
def askAll (kb : KnowledgeBase) (fuel : Nat) (query : List Expr) : Option (List Subst) :=
  (fol_bc_and fuel kb query [] [] 0).map Prod.fst

/-- An atom is derivable from a clause list if it is the head of an
instance of a stored clause all of whose body atoms are derivable. -/
inductive Derivable (cs : List Clause) : Expr → Prop where
  | step (cl : Clause) (σ : String → Expr) :
      cl ∈ cs →
      (∀ b ∈ cl.body, Derivable cs (applyMap σ b)) →
      Derivable cs (applyMap σ cl.head)

/-- `s` is a proper sub-term of `t`. -/
inductive StrictSubterm (s : Expr) : Expr → Prop where
  | fnArg {n : String} {args : List Expr} :
      s ∈ args → StrictSubterm s (.Function n args)
  | fnDeep {n : String} {args : List Expr} {a : Expr} :
      a ∈ args → StrictSubterm s a → StrictSubterm s (.Function n args)
  | pdArg {n : String} {args : List Expr} :
      s ∈ args → StrictSubterm s (.Predicate n args)
  | pdDeep {n : String} {args : List Expr} {a : Expr} :
      a ∈ args → StrictSubterm s a → StrictSubterm s (.Predicate n args)

/-- θ' extends θ: bindings are only ever appended, never changed. -/
def SubExt (θ θ2 : Subst) : Prop := ∃ δ, θ2 = θ ++ δ

/-- Well-formed substitution: every binding's right-hand side resolves
(the binding chains are acyclic, so `substitute` terminates on them). -/
def WFS (θ : Subst) : Prop := ∀ p ∈ θ, ∃ f u, substitute f p.2 θ = some u

/-- `t` resolves to `u` under θ (with some amount of fuel). -/
def Rsub (θ : Subst) (t u : Expr) : Prop := ∃ f, substitute f t θ = some u

/-- The example knowledge base of the demonstration script (section 8 of
the spec): father/mother facts, parent/grandparent/ancestor rules, in
insertion order. -/
def section8Clauses : List Clause :=
  [ ⟨.Predicate "father" [.Constant "abe", .Constant "homer"], []⟩
  , ⟨.Predicate "father" [.Constant "homer", .Constant "bart"], []⟩
  , ⟨.Predicate "mother" [.Constant "mona", .Constant "bart"], []⟩
  , ⟨.Predicate "parent" [.Variable "x", .Variable "y"],
      [.Predicate "father" [.Variable "x", .Variable "y"]]⟩
  , ⟨.Predicate "parent" [.Variable "x", .Variable "y"],
      [.Predicate "mother" [.Variable "x", .Variable "y"]]⟩
  , ⟨.Predicate "grandparent" [.Variable "x", .Variable "z"],
      [.Predicate "parent" [.Variable "x", .Variable "y"],
       .Predicate "parent" [.Variable "y", .Variable "z"]]⟩
  , ⟨.Predicate "ancestor" [.Variable "x", .Variable "z"],
      [.Predicate "parent" [.Variable "x", .Variable "z"]]⟩
  , ⟨.Predicate "ancestor" [.Variable "x", .Variable "z"],
      [.Predicate "parent" [.Variable "x", .Variable "y"],
       .Predicate "ancestor" [.Variable "y", .Variable "z"]]⟩ ]

/-- The section-8 knowledge base. -/
def section8KB : KnowledgeBase := mkKB section8Clauses

/-- An acyclic (non-recursively-looping) knowledge base in the sense of the
specification: some rank on predicate names strictly decreases from each
clause head to every atom of its body, so no chain of clause applications
can revisit a predicate. -/
def AcyclicKB (cs : List Clause) : Prop :=
  ∃ rank : String → Nat,
    ∀ cl ∈ cs, ∀ b ∈ cl.body, rank (exprName b) < rank (exprName cl.head)

/-- A clause is ground when it contains no variables, so every derivation
from an all-ground clause list is a ground proof. -/
def groundClause (cl : Clause) : Bool := (clauseVars cl).isEmpty

/-- Goal atom `p(q(a))` — written with the constant name `q(a`, so that its
`repr` string is `p(q(a)`. -/
def Pc8 : Expr := Expr.Predicate "p" [Expr.Constant "q(a"]

/-- Fact atom with predicate name `p(q` and constant argument `a`; its
`repr` string is also `p(q(a)`, colliding with that of `Pc8` although the
two atoms are structurally different. -/
def Qc8 : Expr := Expr.Predicate "p(q" [Expr.Constant "a"]

/-- The repr-collision knowledge base: the rule `Pc8 <- Qc8` and the fact
`Qc8`.  It is acyclic and all-ground, and `Pc8` has a one-step proof. -/
def csC8 : List Clause := [⟨Pc8, [Qc8]⟩, ⟨Qc8, []⟩]

/-! ### Basic substitution lemmas -/

theorem lookupSubst_mem : ∀ (θ : Subst) (v : String) (t : Expr),
    lookupSubst θ v = some t → (v, t) ∈ θ := by
  intro θ
  induction θ with
  | nil => intro v t h; simp [lookupSubst] at h
  | cons p rest ih =>
    intro v t h
    rcases p with ⟨m, r⟩
    simp only [lookupSubst] at h
    by_cases hv : m = v
    · subst hv
      simp at h
      subst h
      exact List.mem_cons_self _ _
    · simp [hv] at h
      exact List.mem_cons_of_mem _ (ih v t h)

theorem lookupSubst_append_left : ∀ (θ δ : Subst) (v : String) (t : Expr),
    lookupSubst θ v = some t → lookupSubst (θ ++ δ) v = some t := by
  intro θ δ
  induction θ with
  | nil => intro v t h; simp [lookupSubst] at h
  | cons p rest ih =>
    intro v t h
    rcases p with ⟨m, r⟩
    simp only [lookupSubst, List.cons_append] at h ⊢
    by_cases hv : m = v
    · simp_all
    · simp [hv] at h ⊢
      exact ih v t h

theorem lookupSubst_append_none : ∀ (θ δ : Subst) (v : String),
    lookupSubst (θ ++ δ) v = none →
    lookupSubst θ v = none ∧ lookupSubst δ v = none := by
  intro θ δ
  induction θ with
  | nil => intro v h; exact ⟨rfl, h⟩
  | cons p rest ih =>
    intro v h
    rcases p with ⟨m, r⟩
    simp only [lookupSubst, List.cons_append] at h ⊢
    by_cases hv : m = v
    · simp [hv] at h
    · simp [hv] at h ⊢
      exact ih v h

theorem SubExt.refl (θ : Subst) : SubExt θ θ := ⟨[], by simp⟩

theorem SubExt.trans {θ1 θ2 θ3 : Subst} (h1 : SubExt θ1 θ2) (h2 : SubExt θ2 θ3) :
    SubExt θ1 θ3 := by
  rcases h1 with ⟨d1, rfl⟩
  rcases h2 with ⟨d2, rfl⟩
  exact ⟨d1 ++ d2, by simp⟩

theorem SubExt.lookup {θ θ2 : Subst} (h : SubExt θ θ2) {v : String} {t : Expr}
    (hl : lookupSubst θ v = some t) : lookupSubst θ2 v = some t := by
  rcases h with ⟨δ, rfl⟩
  exact lookupSubst_append_left θ δ v t hl

theorem substitute_mono_all : ∀ f : Nat,
    (∀ g t θ u, f ≤ g → substitute f t θ = some u → substitute g t θ = some u) ∧
    (∀ g l θ us, f ≤ g → substList f l θ = some us → substList g l θ = some us) := by
  intro f
  induction f with
  | zero =>
    constructor
    · intro g t θ u _ h; simp [substitute] at h
    · intro g l θ us _ h; simp [substList] at h
  | succ f ih =>
    constructor
    · intro g t θ u hfg h
      cases g with
      | zero => omega
      | succ g =>
        cases t with
        | Variable n =>
          cases hl : lookupSubst θ n with
          | some r =>
            simp only [substitute, hl] at h ⊢
            exact ih.1 g r θ u (by omega) h
          | none =>
            simp only [substitute, hl] at h ⊢
            exact h
        | Constant n => simpa [substitute] using h
        | Function n args =>
          simp only [substitute] at h ⊢
          cases hs : substList f args θ with
          | none => rw [hs] at h; exact absurd h (by simp)
          | some us =>
            rw [hs] at h
            rw [ih.2 g args θ us (by omega) hs]
            exact h
        | Predicate n args =>
          simp only [substitute] at h ⊢
          cases hs : substList f args θ with
          | none => rw [hs] at h; exact absurd h (by simp)
          | some us =>
            rw [hs] at h
            rw [ih.2 g args θ us (by omega) hs]
            exact h
    · intro g l θ us hfg h
      cases g with
      | zero => omega
      | succ g =>
        cases l with
        | nil => simpa [substList] using h
        | cons a as =>
          simp only [substList] at h ⊢
          cases ha : substitute f a θ with
          | none => rw [ha] at h; exact absurd h (by simp)
          | some u =>
            cases has : substList f as θ with
            | none => rw [ha, has] at h; exact absurd h (by simp)
            | some vs =>
              rw [ha, has] at h
              rw [ih.1 g a θ u (by omega) ha, ih.2 g as θ vs (by omega) has]
              exact h

/-- Resolving with more fuel gives the same result. -/
theorem substitute_mono {f g : Nat} {t : Expr} {θ : Subst} {u : Expr} (hfg : f ≤ g)
    (h : substitute f t θ = some u) : substitute g t θ = some u :=
  (substitute_mono_all f).1 g t θ u hfg h

theorem substList_mono {f g : Nat} {l : List Expr} {θ : Subst} {us : List Expr}
    (hfg : f ≤ g) (h : substList f l θ = some us) : substList g l θ = some us :=
  (substitute_mono_all f).2 g l θ us hfg h

/-- `substitute` is deterministic: any two successful resolutions agree. -/
theorem substitute_det {θ : Subst} {t u w : Expr} {f g : Nat}
    (h1 : substitute f t θ = some u) (h2 : substitute g t θ = some w) : u = w := by
  rcases Nat.le_total f g with hle | hle
  · have h3 := substitute_mono hle h1
    rw [h3] at h2
    exact Option.some.inj h2
  · have h3 := substitute_mono hle h2
    rw [h3] at h1
    exact (Option.some.inj h1).symm

theorem varsL_mem : ∀ (l : List Expr) (v : String),
    v ∈ varsL l ↔ ∃ a ∈ l, v ∈ varsE a := by
  intro l
  induction l with
  | nil => simp [varsL]
  | cons a as ih =>
    intro v
    simp only [varsL, List.mem_append, ih]
    constructor
    · rintro (h | ⟨b, hb, hv⟩)
      · exact ⟨a, List.mem_cons_self _ _, h⟩
      · exact ⟨b, List.mem_cons_of_mem _ hb, hv⟩
    · rintro ⟨b, hb, hv⟩
      rcases List.mem_cons.mp hb with rfl | hb2
      · exact Or.inl hv
      · exact Or.inr ⟨b, hb2, hv⟩

/-- Every variable of a resolved term is unbound: `substitute` follows
chains to the end. -/
theorem substitute_vars_unbound_all : ∀ f : Nat,
    (∀ t θ u, substitute f t θ = some u → ∀ v ∈ varsE u, lookupSubst θ v = none) ∧
    (∀ l θ us, substList f l θ = some us → ∀ v ∈ varsL us, lookupSubst θ v = none) := by
  intro f
  induction f with
  | zero =>
    constructor
    · intro t θ u h; simp [substitute] at h
    · intro l θ us h; simp [substList] at h
  | succ f ih =>
    constructor
    · intro t θ u h v hv
      cases t with
      | Variable n =>
        simp only [substitute] at h
        cases hl : lookupSubst θ n with
        | some r => rw [hl] at h; exact ih.1 r θ u h v hv
        | none =>
          rw [hl] at h
          injection h with h
          subst h
          simp [varsE] at hv
          subst hv
          exact hl
      | Constant n =>
        simp only [substitute] at h
        injection h with h
        subst h
        simp [varsE] at hv
      | Function n args =>
        simp only [substitute] at h
        cases hs : substList f args θ with
        | none => rw [hs] at h; exact absurd h (by simp)
        | some us =>
          rw [hs] at h
          injection h with h
          subst h
          simp only [varsE] at hv
          exact ih.2 args θ us hs v hv
      | Predicate n args =>
        simp only [substitute] at h
        cases hs : substList f args θ with
        | none => rw [hs] at h; exact absurd h (by simp)
        | some us =>
          rw [hs] at h
          injection h with h
          subst h
          simp only [varsE] at hv
          exact ih.2 args θ us hs v hv
    · intro l θ us h v hv
      cases l with
      | nil =>
        simp [substList] at h
        subst h
        simp [varsL] at hv
      | cons a as =>
        simp only [substList] at h
        cases ha : substitute f a θ with
        | none => rw [ha] at h; exact absurd h (by simp)
        | some u =>
          cases has : substList f as θ with
          | none => rw [ha, has] at h; exact absurd h (by simp)
          | some vs =>
            rw [ha, has] at h
            injection h with h
            subst h
            simp only [varsL, List.mem_append] at hv
            rcases hv with hv | hv
            · exact ih.1 a θ u ha v hv
            · exact ih.2 as θ vs has v hv

theorem substitute_vars_unbound {f : Nat} {t : Expr} {θ : Subst} {u : Expr}
    (h : substitute f t θ = some u) : ∀ v ∈ varsE u, lookupSubst θ v = none :=
  (substitute_vars_unbound_all f).1 t θ u h

/-- Terms all of whose variables are unbound resolve to themselves
(with fuel at least their size). -/
theorem substitute_self_all : ∀ f : Nat,
    (∀ t θ, (∀ v ∈ varsE t, lookupSubst θ v = none) → sizeOf t ≤ f →
      substitute f t θ = some t) ∧
    (∀ l θ, (∀ v ∈ varsL l, lookupSubst θ v = none) → sizeOf l ≤ f →
      substList f l θ = some l) := by
  intro f
  induction f with
  | zero =>
    constructor
    · intro t θ _ ht; cases t <;> simp_all
    · intro l θ _ hl; cases l <;> simp_all
  | succ f ih =>
    constructor
    · intro t θ hun ht
      cases t with
      | Variable n =>
        have : lookupSubst θ n = none := hun n (by simp [varsE])
        simp [substitute, this]
      | Constant n => simp [substitute]
      | Function n args =>
        have hargs : substList f args θ = some args := by
          refine ih.2 args θ (fun v hv => hun v ?_) ?_
          · simpa [varsE] using hv
          · simp at ht; omega
        simp [substitute, hargs]
      | Predicate n args =>
        have hargs : substList f args θ = some args := by
          refine ih.2 args θ (fun v hv => hun v ?_) ?_
          · simpa [varsE] using hv
          · simp at ht; omega
        simp [substitute, hargs]
    · intro l θ hun hl
      cases l with
      | nil => simp [substList]
      | cons a as =>
        have ha : substitute f a θ = some a := by
          refine ih.1 a θ (fun v hv => hun v ?_) ?_
          · simp [varsL, List.mem_append, hv]
          · simp at hl; omega
        have has : substList f as θ = some as := by
          refine ih.2 as θ (fun v hv => hun v ?_) ?_
          · simp [varsL, List.mem_append, hv]
          · simp at hl; omega
        simp [substList, ha, has]

theorem substitute_self {t : Expr} {θ : Subst}
    (hun : ∀ v ∈ varsE t, lookupSubst θ v = none) :
    ∀ f, sizeOf t ≤ f → substitute f t θ = some t :=
  fun f hf => (substitute_self_all f).1 t θ hun hf

/-- Under the empty substitution every term resolves to itself. -/
theorem substitute_nil {t : Expr} : ∀ f, sizeOf t ≤ f → substitute f t [] = some t :=
  substitute_self (by intro v _; rfl)

/-- Resolution is idempotent with the same fuel: the result of
`substitute` contains no bound variables, so resolving it again changes
nothing (the heart of the substitution-idempotence property). -/
theorem substitute_idem_all : ∀ f : Nat,
    (∀ t θ u, substitute f t θ = some u → substitute f u θ = some u) ∧
    (∀ l θ us, substList f l θ = some us → substList f us θ = some us) := by
  intro f
  induction f with
  | zero =>
    constructor
    · intro t θ u h; simp [substitute] at h
    · intro l θ us h; simp [substList] at h
  | succ f ih =>
    constructor
    · intro t θ u h
      cases t with
      | Variable n =>
        cases hl : lookupSubst θ n with
        | some r =>
          simp only [substitute, hl] at h
          exact substitute_mono (Nat.le_succ f) (ih.1 r θ u h)
        | none =>
          simp only [substitute, hl, Option.some.injEq] at h
          subst h
          simp [substitute, hl]
      | Constant n =>
        simp only [substitute, Option.some.injEq] at h
        subst h
        simp [substitute]
      | Function n args =>
        cases hs : substList f args θ with
        | none => simp [substitute, hs] at h
        | some us =>
          simp only [substitute, hs, Option.some.injEq] at h
          subst h
          simp [substitute, ih.2 args θ us hs]
      | Predicate n args =>
        cases hs : substList f args θ with
        | none => simp [substitute, hs] at h
        | some us =>
          simp only [substitute, hs, Option.some.injEq] at h
          subst h
          simp [substitute, ih.2 args θ us hs]
    · intro l θ us h
      cases l with
      | nil =>
        simp [substList] at h
        subst h
        simp [substList]
      | cons a as =>
        cases ha : substitute f a θ with
        | none => simp [substList, ha] at h
        | some u =>
          cases has : substList f as θ with
          | none => simp [substList, ha, has] at h
          | some vs =>
            simp only [substList, ha, has, Option.some.injEq] at h
            subst h
            simp [substList, ih.1 a θ u ha, ih.2 as θ vs has]

theorem substitute_idem {f : Nat} {t : Expr} {θ : Subst} {u : Expr}
    (h : substitute f t θ = some u) : substitute f u θ = some u :=
  (substitute_idem_all f).1 t θ u h

/-- Combine element-wise resolvability into list resolvability. -/
theorem substList_of_forall {θ : Subst} :
    ∀ l : List Expr, (∀ a ∈ l, ∃ f u, substitute f a θ = some u) →
      ∃ f us, substList f l θ = some us := by
  intro l
  induction l with
  | nil => intro _; exact ⟨1, [], rfl⟩
  | cons a as ih =>
    intro h
    rcases h a (List.mem_cons_self _ _) with ⟨fa, u, hu⟩
    rcases ih (fun b hb => h b (List.mem_cons_of_mem _ hb)) with ⟨fl, us, hus⟩
    refine ⟨max fa fl + 1, u :: us, ?_⟩
    have h1 : substitute (max fa fl) a θ = some u :=
      substitute_mono (Nat.le_max_left fa fl) hu
    have h2 : substList (max fa fl) as θ = some us :=
      substList_mono (Nat.le_max_right fa fl) hus
    simp [substList, h1, h2]

/-- Under a well-formed substitution every term resolves. -/
theorem WFS.total {θ : Subst} (hθ : WFS θ) : ∀ t : Expr, ∃ f u, substitute f t θ = some u := by
  refine Expr.indOn ?_ ?_ ?_ ?_
  · intro n
    cases hl : lookupSubst θ n with
    | some r =>
      rcases hθ (n, r) (lookupSubst_mem θ n r hl) with ⟨f, u, hu⟩
      exact ⟨f + 1, u, by simp [substitute, hl, hu]⟩
    | none => exact ⟨1, Expr.Variable n, by simp [substitute, hl]⟩
  · intro n
    exact ⟨1, Expr.Constant n, by simp [substitute]⟩
  · intro n args ihargs
    rcases substList_of_forall args ihargs with ⟨f, us, hus⟩
    exact ⟨f + 1, Expr.Function n us, by simp [substitute, hus]⟩
  · intro n args ihargs
    rcases substList_of_forall args ihargs with ⟨f, us, hus⟩
    exact ⟨f + 1, Expr.Predicate n us, by simp [substitute, hus]⟩

/-- Factoring: resolving under an extension θ2 of θ can be done by first
resolving under θ. -/
theorem substitute_factor_all : ∀ f : Nat,
    (∀ t θ u θ2, substitute f t θ = some u → SubExt θ θ2 →
      ∀ g w, substitute g u θ2 = some w → ∃ h, substitute h t θ2 = some w) ∧
    (∀ l θ us θ2, substList f l θ = some us → SubExt θ θ2 →
      ∀ g ws, substList g us θ2 = some ws → ∃ h, substList h l θ2 = some ws) := by
  intro f
  induction f with
  | zero =>
    constructor
    · intro t θ u θ2 h; simp [substitute] at h
    · intro l θ us θ2 h; simp [substList] at h
  | succ f ih =>
    constructor
    · intro t θ u θ2 h hext g w hw
      cases t with
      | Variable n =>
        cases hl : lookupSubst θ n with
        | some r =>
          simp only [substitute, hl] at h
          rcases ih.1 r θ u θ2 h hext g w hw with ⟨h0, hh0⟩
          exact ⟨h0 + 1, by simp [substitute, hext.lookup hl, hh0]⟩
        | none =>
          simp only [substitute, hl, Option.some.injEq] at h
          subst h
          exact ⟨g, hw⟩
      | Constant n =>
        simp only [substitute, Option.some.injEq] at h
        subst h
        exact ⟨g, hw⟩
      | Function n args =>
        cases hs : substList f args θ with
        | none => simp [substitute, hs] at h
        | some us =>
          simp only [substitute, hs, Option.some.injEq] at h
          subst h
          cases g with
          | zero => simp [substitute] at hw
          | succ g =>
            cases hws : substList g us θ2 with
            | none => simp [substitute, hws] at hw
            | some ws =>
              simp only [substitute, hws, Option.some.injEq] at hw
              subst hw
              rcases ih.2 args θ us θ2 hs hext g ws hws with ⟨h0, hh0⟩
              exact ⟨h0 + 1, by simp [substitute, hh0]⟩
      | Predicate n args =>
        cases hs : substList f args θ with
        | none => simp [substitute, hs] at h
        | some us =>
          simp only [substitute, hs, Option.some.injEq] at h
          subst h
          cases g with
          | zero => simp [substitute] at hw
          | succ g =>
            cases hws : substList g us θ2 with
            | none => simp [substitute, hws] at hw
            | some ws =>
              simp only [substitute, hws, Option.some.injEq] at hw
              subst hw
              rcases ih.2 args θ us θ2 hs hext g ws hws with ⟨h0, hh0⟩
              exact ⟨h0 + 1, by simp [substitute, hh0]⟩
    · intro l θ us θ2 h hext g ws hws
      cases l with
      | nil =>
        simp [substList] at h
        subst h
        cases g with
        | zero => simp [substList] at hws
        | succ g =>
          simp [substList] at hws
          subst hws
          exact ⟨1, rfl⟩
      | cons a as =>
        cases ha : substitute f a θ with
        | none => simp [substList, ha] at h
        | some u =>
          cases has : substList f as θ with
          | none => simp [substList, ha, has] at h
          | some vs =>
            simp only [substList, ha, has, Option.some.injEq] at h
            subst h
            cases g with
            | zero => simp [substList] at hws
            | succ g =>
              cases hw1 : substitute g u θ2 with
              | none => simp [substList, hw1] at hws
              | some w0 =>
                cases hw2 : substList g vs θ2 with
                | none => simp [substList, hw1, hw2] at hws
                | some ws0 =>
                  simp only [substList, hw1, hw2, Option.some.injEq] at hws
                  subst hws
                  rcases ih.1 a θ u θ2 ha hext g w0 hw1 with ⟨h1, hh1⟩
                  rcases ih.2 as θ vs θ2 has hext g ws0 hw2 with ⟨h2, hh2⟩
                  refine ⟨max h1 h2 + 1, ?_⟩
                  have k1 : substitute (max h1 h2) a θ2 = some w0 :=
                    substitute_mono (Nat.le_max_left h1 h2) hh1
                  have k2 : substList (max h1 h2) as θ2 = some ws0 :=
                    substList_mono (Nat.le_max_right h1 h2) hh2
                  simp [substList, k1, k2]

theorem substitute_factor {f : Nat} {t : Expr} {θ : Subst} {u : Expr} {θ2 : Subst}
    (h : substitute f t θ = some u) (hext : SubExt θ θ2) {g : Nat} {w : Expr}
    (hw : substitute g u θ2 = some w) : ∃ h0, substitute h0 t θ2 = some w :=
  (substitute_factor_all f).1 t θ u θ2 h hext g w hw

/-- Resolving a term resolves each of its variables. -/
theorem substitute_vars_defined_all : ∀ f : Nat,
    (∀ t θ u, substitute f t θ = some u →
      ∀ v ∈ varsE t, ∃ w, substitute f (Expr.Variable v) θ = some w) ∧
    (∀ l θ us, substList f l θ = some us →
      ∀ v ∈ varsL l, ∃ w, substitute f (Expr.Variable v) θ = some w) := by
  intro f
  induction f with
  | zero =>
    constructor
    · intro t θ u h; simp [substitute] at h
    · intro l θ us h; simp [substList] at h
  | succ f ih =>
    constructor
    · intro t θ u h v hv
      cases t with
      | Variable n =>
        simp [varsE] at hv
        subst hv
        exact ⟨u, h⟩
      | Constant n => simp [varsE] at hv
      | Function n args =>
        cases hs : substList f args θ with
        | none => simp [substitute, hs] at h
        | some us =>
          simp only [varsE] at hv
          rcases ih.2 args θ us hs v hv with ⟨w, hw⟩
          exact ⟨w, substitute_mono (Nat.le_succ f) hw⟩
      | Predicate n args =>
        cases hs : substList f args θ with
        | none => simp [substitute, hs] at h
        | some us =>
          simp only [varsE] at hv
          rcases ih.2 args θ us hs v hv with ⟨w, hw⟩
          exact ⟨w, substitute_mono (Nat.le_succ f) hw⟩
    · intro l θ us h v hv
      cases l with
      | nil => simp [varsL] at hv
      | cons a as =>
        cases ha : substitute f a θ with
        | none => simp [substList, ha] at h
        | some u =>
          cases has : substList f as θ with
          | none => simp [substList, ha, has] at h
          | some vs =>
            simp only [varsL, List.mem_append] at hv
            rcases hv with hv | hv
            · rcases ih.1 a θ u ha v hv with ⟨w, hw⟩
              exact ⟨w, substitute_mono (Nat.le_succ f) hw⟩
            · rcases ih.2 as θ vs has v hv with ⟨w, hw⟩
              exact ⟨w, substitute_mono (Nat.le_succ f) hw⟩


/-! ### `applyMap` lemmas -/

theorem applyMapList_congr {σ τ : String → Expr} :
    ∀ l : List Expr, (∀ a ∈ l, applyMap σ a = applyMap τ a) →
      applyMapList σ l = applyMapList τ l := by
  intro l
  induction l with
  | nil => intro _; rfl
  | cons a as ih =>
    intro h
    simp only [applyMapList]
    rw [h a (List.mem_cons_self _ _), ih (fun b hb => h b (List.mem_cons_of_mem _ hb))]

/-- `applyMap` only depends on the values of the assignment at the
variables of the term. -/
theorem applyMap_congr {σ τ : String → Expr} :
    ∀ t : Expr, (∀ v ∈ varsE t, σ v = τ v) → applyMap σ t = applyMap τ t := by
  refine Expr.indOn ?_ ?_ ?_ ?_
  · intro n h
    simpa [applyMap] using h n (by simp [varsE])
  · intro n _
    simp [applyMap]
  · intro n args ih h
    simp only [applyMap]
    rw [applyMapList_congr args
      (fun a ha => ih a ha (fun v hv => h v (by simp only [varsE]; exact (varsL_mem args v).mpr ⟨a, ha, hv⟩)))]
  · intro n args ih h
    simp only [applyMap]
    rw [applyMapList_congr args
      (fun a ha => ih a ha (fun v hv => h v (by simp only [varsE]; exact (varsL_mem args v).mpr ⟨a, ha, hv⟩)))]

/-- Composition of plain substitutions. -/
theorem applyMap_comp (σ τ : String → Expr) :
    ∀ t : Expr, applyMap σ (applyMap τ t) = applyMap (fun v => applyMap σ (τ v)) t := by
  refine Expr.indOn ?_ ?_ ?_ ?_
  · intro n; rfl
  · intro n; rfl
  · intro n args ih
    simp only [applyMap]
    congr 1
    induction args with
    | nil => rfl
    | cons a as iha =>
      simp only [applyMapList]
      rw [ih a (List.mem_cons_self _ _), iha (fun b hb => ih b (List.mem_cons_of_mem _ hb))]
  · intro n args ih
    simp only [applyMap]
    congr 1
    induction args with
    | nil => rfl
    | cons a as iha =>
      simp only [applyMapList]
      rw [ih a (List.mem_cons_self _ _), iha (fun b hb => ih b (List.mem_cons_of_mem _ hb))]

/-- The full resolution of a term is the plain substitution by the map
sending each variable to its resolved value. -/
theorem substitute_applyMap_all : ∀ f : Nat,
    (∀ t θ u, substitute f t θ = some u →
      u = applyMap (fun v => (substitute f (Expr.Variable v) θ).getD (Expr.Variable v)) t) ∧
    (∀ l θ us, substList f l θ = some us →
      us = applyMapList (fun v => (substitute f (Expr.Variable v) θ).getD (Expr.Variable v)) l) := by
  intro f
  induction f with
  | zero =>
    constructor
    · intro t θ u h; simp [substitute] at h
    · intro l θ us h; simp [substList] at h
  | succ f ih =>
    constructor
    · intro t θ u h
      cases t with
      | Variable n =>
        simp [applyMap, h]
      | Constant n =>
        simp only [substitute, Option.some.injEq] at h
        subst h
        simp [applyMap]
      | Function n args =>
        cases hs : substList f args θ with
        | none => simp [substitute, hs] at h
        | some us =>
          simp only [substitute, hs, Option.some.injEq] at h
          subst h
          simp only [applyMap]
          congr 1
          rw [ih.2 args θ us hs]
          refine applyMapList_congr args (fun a ha => applyMap_congr a (fun v hv => ?_))
          rcases (substitute_vars_defined_all f).2 args θ us hs v
            ((varsL_mem args v).mpr ⟨a, ha, hv⟩) with ⟨w, hw⟩
          rw [hw, substitute_mono (Nat.le_succ f) hw]
      | Predicate n args =>
        cases hs : substList f args θ with
        | none => simp [substitute, hs] at h
        | some us =>
          simp only [substitute, hs, Option.some.injEq] at h
          subst h
          simp only [applyMap]
          congr 1
          rw [ih.2 args θ us hs]
          refine applyMapList_congr args (fun a ha => applyMap_congr a (fun v hv => ?_))
          rcases (substitute_vars_defined_all f).2 args θ us hs v
            ((varsL_mem args v).mpr ⟨a, ha, hv⟩) with ⟨w, hw⟩
          rw [hw, substitute_mono (Nat.le_succ f) hw]
    · intro l θ us h
      cases l with
      | nil =>
        simp [substList] at h
        subst h
        rfl
      | cons a as =>
        cases ha : substitute f a θ with
        | none => simp [substList, ha] at h
        | some u =>
          cases has : substList f as θ with
          | none => simp [substList, ha, has] at h
          | some vs =>
            simp only [substList, ha, has, Option.some.injEq] at h
            subst h
            simp only [applyMapList]
            congr 1
            · rw [ih.1 a θ u ha]
              refine applyMap_congr a (fun v hv => ?_)
              rcases (substitute_vars_defined_all f).1 a θ u ha v hv with ⟨w, hw⟩
              rw [hw, substitute_mono (Nat.le_succ f) hw]
            · rw [ih.2 as θ vs has]
              refine applyMapList_congr as (fun b hb => applyMap_congr b (fun v hv => ?_))
              rcases (substitute_vars_defined_all f).2 as θ vs has v
                ((varsL_mem as v).mpr ⟨b, hb, hv⟩) with ⟨w, hw⟩
              rw [hw, substitute_mono (Nat.le_succ f) hw]

theorem substitute_applyMap {f : Nat} {t : Expr} {θ : Subst} {u : Expr}
    (h : substitute f t θ = some u) :
    u = applyMap (fun v => (substitute f (Expr.Variable v) θ).getD (Expr.Variable v)) t :=
  (substitute_applyMap_all f).1 t θ u h

/-! ### Variables and sub-terms -/

/-- A variable name occurs in a term iff the variable is the term itself
or a proper sub-term of it. -/
theorem varsE_subterm : ∀ (t : Expr) (n : String),
    n ∈ varsE t ↔ (t = Expr.Variable n ∨ StrictSubterm (Expr.Variable n) t) := by
  refine Expr.indOn ?_ ?_ ?_ ?_
  · intro m n
    constructor
    · intro h
      simp [varsE] at h
      subst h
      exact Or.inl rfl
    · rintro (h | h)
      · injection h with h; subst h; simp [varsE]
      · cases h
  · intro m n
    constructor
    · intro h; simp [varsE] at h
    · rintro (h | h)
      · cases h
      · cases h
  · intro m args ih n
    simp only [varsE]
    constructor
    · intro h
      rcases (varsL_mem args n).mp h with ⟨a, ha, hna⟩
      rcases (ih a ha n).mp hna with rfl | hsub
      · exact Or.inr (StrictSubterm.fnArg ha)
      · exact Or.inr (StrictSubterm.fnDeep ha hsub)
    · rintro (h | h)
      · cases h
      · cases h with
        | fnArg ha => exact (varsL_mem args n).mpr ⟨_, ha, by simp [varsE]⟩
        | fnDeep ha hsub =>
          exact (varsL_mem args n).mpr ⟨_, ha, (ih _ ha n).mpr (Or.inr hsub)⟩
  · intro m args ih n
    simp only [varsE]
    constructor
    · intro h
      rcases (varsL_mem args n).mp h with ⟨a, ha, hna⟩
      rcases (ih a ha n).mp hna with rfl | hsub
      · exact Or.inr (StrictSubterm.pdArg ha)
      · exact Or.inr (StrictSubterm.pdDeep ha hsub)
    · rintro (h | h)
      · cases h
      · cases h with
        | pdArg ha => exact (varsL_mem args n).mpr ⟨_, ha, by simp [varsE]⟩
        | pdDeep ha hsub =>
          exact (varsL_mem args n).mpr ⟨_, ha, (ih _ ha n).mpr (Or.inr hsub)⟩

/-! ### Occurs-check semantics -/

/-- A successful occurs check resolved its argument. -/
theorem occurs_check_some_sub {F : Nat} {var x : Expr} {θ : Subst} {b : Bool}
    (h : occurs_check F var x θ = some b) : ∃ x2, substitute F x θ = some x2 := by
  cases F with
  | zero => simp [occurs_check] at h
  | succ f =>
    cases hs : substitute (f + 1) x θ with
    | none => simp [occurs_check, hs] at h
    | some x2 => exact ⟨x2, rfl⟩

/-- Resolving a term with no bound variables yields the term itself. -/
theorem substitute_normal_eq {θ : Subst} {a a2 : Expr} {F : Nat}
    (hn : ∀ v ∈ varsE a, lookupSubst θ v = none)
    (h : substitute F a θ = some a2) : a2 = a :=
  substitute_det h (substitute_self hn (sizeOf a) le_rfl)

/-- A `False` verdict of the argument loop gives a `False` verdict (at
smaller fuel) for every argument. -/
theorem occursList_false_elems : ∀ (F : Nat) (var : Expr) (l : List Expr) (θ : Subst),
    occursList F var l θ = some false →
    ∀ a ∈ l, ∃ G, G < F ∧ occurs_check G var a θ = some false := by
  intro F
  induction F with
  | zero => intro var l θ h; simp [occursList] at h
  | succ f ih =>
    intro var l θ h a ha
    cases l with
    | nil => cases ha
    | cons b bs =>
      rcases List.mem_cons.mp ha with rfl | ha2
      · cases hb : occurs_check f var a θ with
        | none => simp [occursList, hb] at h
        | some c =>
          cases c with
          | true => simp [occursList, hb] at h
          | false => exact ⟨f, Nat.lt_succ_self f, hb⟩
      · cases hb : occurs_check f var b θ with
        | none => simp [occursList, hb] at h
        | some c =>
          cases c with
          | true => simp [occursList, hb] at h
          | false =>
            simp only [occursList, hb] at h
            rcases ih var bs θ h a ha2 with ⟨G, hG, hf⟩
            exact ⟨G, Nat.lt_succ_of_lt hG, hf⟩

/-- Soundness of the occurs check: a `False` verdict means the variable
is not the resolved term and not a proper sub-term of it. -/
theorem occurs_false_not_subterm : ∀ (F : Nat) (var x : Expr) (θ : Subst) (u : Expr),
    occurs_check F var x θ = some false → substitute F x θ = some u →
    ¬(var = u ∨ StrictSubterm var u) := by
  intro F
  induction F using Nat.strong_induction_on with
  | _ F ih =>
    intro var x θ u hocc hsub
    cases F with
    | zero => simp [occurs_check] at hocc
    | succ f =>
      rw [occurs_check, hsub] at hocc
      by_cases hvu : var = u
      · simp [hvu] at hocc
      · simp only [hvu, if_false, if_neg] at hocc
        have hnorm : ∀ v ∈ varsE u, lookupSubst θ v = none :=
          substitute_vars_unbound hsub
        rintro (h | h)
        · exact hvu h
        · cases h with
          | fnArg hmem =>
            rcases occursList_false_elems f var _ θ hocc var hmem with ⟨G, _, hG⟩
            rcases occurs_check_some_sub hG with ⟨w, hw⟩
            have hvn : ∀ v ∈ varsE var, lookupSubst θ v = none := by
              intro v hv
              refine hnorm v ?_
              simp only [varsE]
              exact (varsL_mem _ v).mpr ⟨var, hmem, hv⟩
            have hwv : w = var := substitute_normal_eq hvn hw
            exact ih G (by omega) var var θ w hG hw (Or.inl hwv.symm)
          | fnDeep hmem hst =>
            rename_i args a
            rcases occursList_false_elems f var _ θ hocc a hmem with ⟨G, _, hG⟩
            rcases occurs_check_some_sub hG with ⟨w, hw⟩
            have hvn : ∀ v ∈ varsE a, lookupSubst θ v = none := by
              intro v hv
              refine hnorm v ?_
              simp only [varsE]
              exact (varsL_mem _ v).mpr ⟨a, hmem, hv⟩
            have hwa : w = a := substitute_normal_eq hvn hw
            exact ih G (by omega) var a θ w hG hw (Or.inr (by rw [hwa]; exact hst))
          | pdArg hmem =>
            rcases occursList_false_elems f var _ θ hocc var hmem with ⟨G, _, hG⟩
            rcases occurs_check_some_sub hG with ⟨w, hw⟩
            have hvn : ∀ v ∈ varsE var, lookupSubst θ v = none := by
              intro v hv
              refine hnorm v ?_
              simp only [varsE]
              exact (varsL_mem _ v).mpr ⟨var, hmem, hv⟩
            have hwv : w = var := substitute_normal_eq hvn hw
            exact ih G (by omega) var var θ w hG hw (Or.inl hwv.symm)
          | pdDeep hmem hst =>
            rename_i args a
            rcases occursList_false_elems f var _ θ hocc a hmem with ⟨G, _, hG⟩
            rcases occurs_check_some_sub hG with ⟨w, hw⟩
            have hvn : ∀ v ∈ varsE a, lookupSubst θ v = none := by
              intro v hv
              refine hnorm v ?_
              simp only [varsE]
              exact (varsL_mem _ v).mpr ⟨a, hmem, hv⟩
            have hwa : w = a := substitute_normal_eq hvn hw
            exact ih G (by omega) var a θ w hG hw (Or.inr (by rw [hwa]; exact hst))

/-- Under the empty substitution the occurs check always terminates. -/
theorem occurs_total_nil : ∀ F : Nat,
    (∀ (var t : Expr), sizeOf t < F → ∃ b, occurs_check F var t [] = some b) ∧
    (∀ (var : Expr) (l : List Expr), sizeOf l < F → ∃ b, occursList F var l [] = some b) := by
  intro F
  induction F with
  | zero =>
    constructor
    · intro var t h; omega
    · intro var l h; omega
  | succ f ih =>
    constructor
    · intro var t hsz
      have hself : substitute (f + 1) t [] = some t := substitute_nil (f + 1) (by omega)
      by_cases hv : var = t
      · exact ⟨true, by rw [occurs_check, hself]; simp [hv]⟩
      · cases t with
        | Variable n => exact ⟨false, by rw [occurs_check, hself]; simp [hv]⟩
        | Constant n => exact ⟨false, by rw [occurs_check, hself]; simp [hv]⟩
        | Function n args =>
          rcases ih.2 var args (by simp at hsz; omega) with ⟨b, hb⟩
          exact ⟨b, by rw [occurs_check, hself]; simp [hv, hb]⟩
        | Predicate n args =>
          rcases ih.2 var args (by simp at hsz; omega) with ⟨b, hb⟩
          exact ⟨b, by rw [occurs_check, hself]; simp [hv, hb]⟩
    · intro var l hsz
      cases l with
      | nil => exact ⟨false, rfl⟩
      | cons a as =>
        rcases ih.1 var a (by simp at hsz; omega) with ⟨b, hb⟩
        cases b with
        | true => exact ⟨true, by simp [occursList, hb]⟩
        | false =>
          rcases ih.2 var as (by simp at hsz; omega) with ⟨c, hc⟩
          exact ⟨c, by simp [occursList, hb, hc]⟩

/-- Completeness of the occurs check under the empty substitution: a
variable that is the term or a proper sub-term of it is found. -/
theorem occurs_true_nil : ∀ F : Nat,
    (∀ (var t : Expr), sizeOf t < F → (var = t ∨ StrictSubterm var t) →
      occurs_check F var t [] = some true) ∧
    (∀ (var : Expr) (l : List Expr), sizeOf l < F →
      (∃ a ∈ l, var = a ∨ StrictSubterm var a) → occursList F var l [] = some true) := by
  intro F
  induction F with
  | zero =>
    constructor
    · intro var t h; omega
    · intro var l h; omega
  | succ f ih =>
    constructor
    · intro var t hsz hocc
      have hself : substitute (f + 1) t [] = some t := substitute_nil (f + 1) (by omega)
      by_cases hv : var = t
      · rw [occurs_check, hself]; simp [hv]
      · rcases hocc with h | h
        · exact absurd h hv
        · cases h with
          | fnArg hmem =>
            rw [occurs_check, hself]
            simp only [hv, if_neg, if_false]
            exact ih.2 var _ (by simp at hsz; omega) ⟨var, hmem, Or.inl rfl⟩
          | fnDeep hmem hst =>
            rw [occurs_check, hself]
            simp only [hv, if_neg, if_false]
            exact ih.2 var _ (by simp at hsz; omega) ⟨_, hmem, Or.inr hst⟩
          | pdArg hmem =>
            rw [occurs_check, hself]
            simp only [hv, if_neg, if_false]
            exact ih.2 var _ (by simp at hsz; omega) ⟨var, hmem, Or.inl rfl⟩
          | pdDeep hmem hst =>
            rw [occurs_check, hself]
            simp only [hv, if_neg, if_false]
            exact ih.2 var _ (by simp at hsz; omega) ⟨_, hmem, Or.inr hst⟩
    · intro var l hsz hex
      cases l with
      | nil => rcases hex with ⟨a, ha, _⟩; cases ha
      | cons a as =>
        rcases hex with ⟨w, hw, hocc⟩
        rcases List.mem_cons.mp hw with rfl | hw2
        · have := ih.1 var w (by simp at hsz; omega) hocc
          simp [occursList, this]
        · rcases ih.1 var a (by simp at hsz; omega) with hb
          rcases occurs_total_nil (f) |>.1 var a (by simp at hsz; omega) with ⟨b, hb2⟩
          cases b with
          | true => simp [occursList, hb2]
          | false =>
            have := ih.2 var as (by simp at hsz; omega) ⟨w, hw2, hocc⟩
            simp [occursList, hb2, this]

/-! ### Extending a substitution with a fresh binding -/

theorem lookupSubst_append (θ δ : Subst) (v : String) :
    lookupSubst (θ ++ δ) v =
      match lookupSubst θ v with
      | some t => some t
      | none => lookupSubst δ v := by
  induction θ with
  | nil => simp [lookupSubst]
  | cons p rest ih =>
    rcases p with ⟨m, r⟩
    by_cases hv : m = v
    · simp [lookupSubst, hv]
    · simp [lookupSubst, hv, ih]

/-- A resolution whose result does not mention `n` is unaffected by
appending a binding for `n`. -/
theorem substitute_append_irrelevant_all (n : String) (x : Expr) : ∀ F : Nat,
    (∀ t θ u, substitute F t θ = some u → n ∉ varsE u → lookupSubst θ n = none →
      substitute F t (θ ++ [(n, x)]) = some u) ∧
    (∀ l θ us, substList F l θ = some us → n ∉ varsL us → lookupSubst θ n = none →
      substList F l (θ ++ [(n, x)]) = some us) := by
  intro F
  induction F with
  | zero =>
    constructor
    · intro t θ u h; simp [substitute] at h
    · intro l θ us h; simp [substList] at h
  | succ f ih =>
    constructor
    · intro t θ u h hnu hn
      cases t with
      | Variable v =>
        cases hl : lookupSubst θ v with
        | some r =>
          simp only [substitute, hl] at h
          have hl2 : lookupSubst (θ ++ [(n, x)]) v = some r :=
            lookupSubst_append_left θ _ v r hl
          simp only [substitute, hl2]
          exact ih.1 r θ u h hnu hn
        | none =>
          simp only [substitute, hl, Option.some.injEq] at h
          subst h
          have hvn : v ≠ n := by
            intro hvn
            subst hvn
            exact hnu (by simp [varsE])
          have hl2 : lookupSubst (θ ++ [(n, x)]) v = none := by
            rw [lookupSubst_append, hl]
            simp [lookupSubst, Ne.symm hvn]
          simp [substitute, hl2]
      | Constant m =>
        simp only [substitute, Option.some.injEq] at h
        subst h
        simp [substitute]
      | Function m args =>
        cases hs : substList f args θ with
        | none => simp [substitute, hs] at h
        | some us =>
          simp only [substitute, hs, Option.some.injEq] at h
          subst h
          have : substList f args (θ ++ [(n, x)]) = some us :=
            ih.2 args θ us hs (by simpa [varsE] using hnu) hn
          simp [substitute, this]
      | Predicate m args =>
        cases hs : substList f args θ with
        | none => simp [substitute, hs] at h
        | some us =>
          simp only [substitute, hs, Option.some.injEq] at h
          subst h
          have : substList f args (θ ++ [(n, x)]) = some us :=
            ih.2 args θ us hs (by simpa [varsE] using hnu) hn
          simp [substitute, this]
    · intro l θ us h hnu hn
      cases l with
      | nil =>
        simp [substList] at h
        subst h
        simp [substList]
      | cons a as =>
        cases ha : substitute f a θ with
        | none => simp [substList, ha] at h
        | some u =>
          cases has : substList f as θ with
          | none => simp [substList, ha, has] at h
          | some vs =>
            simp only [substList, ha, has, Option.some.injEq] at h
            subst h
            have hnuv : n ∉ varsE u ∧ n ∉ varsL vs := by
              constructor <;> (intro hmem; exact hnu (by simp [varsL, List.mem_append, hmem]))
            have h1 := ih.1 a θ u ha hnuv.1 hn
            have h2 := ih.2 as θ vs has hnuv.2 hn
            simp [substList, h1, h2]

/-- Transfer of resolutions along a fresh binding: resolving `t` under
`θ ++ [(n, x)]` is resolving it under θ and then substituting the binding
value for the remaining occurrences of `n`. -/
theorem substitute_extend_all (θ : Subst) (n : String) (x x2 : Expr) (F0 : Nat)
    (hx : substitute F0 x θ = some x2) (hn : lookupSubst θ n = none)
    (hnx : n ∉ varsE x2) : ∀ F : Nat,
    (∀ t u, substitute F t θ = some u → ∃ g, substitute g t (θ ++ [(n, x)]) =
      some (applyMap (fun v => if v = n then x2 else Expr.Variable v) u)) ∧
    (∀ l us, substList F l θ = some us → ∃ g, substList g l (θ ++ [(n, x)]) =
      some (applyMapList (fun v => if v = n then x2 else Expr.Variable v) us)) := by
  have hxext : substitute F0 x (θ ++ [(n, x)]) = some x2 :=
    (substitute_append_irrelevant_all n x F0).1 x θ x2 hx hnx hn
  intro F
  induction F with
  | zero =>
    constructor
    · intro t u h; simp [substitute] at h
    · intro l us h; simp [substList] at h
  | succ f ih =>
    constructor
    · intro t u h
      cases t with
      | Variable v =>
        cases hl : lookupSubst θ v with
        | some r =>
          simp only [substitute, hl] at h
          rcases ih.1 r u h with ⟨g, hg⟩
          refine ⟨g + 1, ?_⟩
          have hl2 : lookupSubst (θ ++ [(n, x)]) v = some r :=
            lookupSubst_append_left θ _ v r hl
          simp [substitute, hl2, hg]
        | none =>
          simp only [substitute, hl, Option.some.injEq] at h
          subst h
          by_cases hv : v = n
          · refine ⟨F0 + 1, ?_⟩
            have hl2 : lookupSubst (θ ++ [(n, x)]) n = some x := by
              rw [lookupSubst_append, hn]
              simp [lookupSubst]
            simp [substitute, hl2, applyMap, hv, hxext]
          · refine ⟨1, ?_⟩
            have hl2 : lookupSubst (θ ++ [(n, x)]) v = none := by
              rw [lookupSubst_append, hl]
              simp [lookupSubst, Ne.symm hv]
            simp [substitute, hl2, applyMap, hv]
      | Constant m =>
        simp only [substitute, Option.some.injEq] at h
        subst h
        exact ⟨1, by simp [substitute, applyMap]⟩
      | Function m args =>
        cases hs : substList f args θ with
        | none => simp [substitute, hs] at h
        | some us =>
          simp only [substitute, hs, Option.some.injEq] at h
          subst h
          rcases ih.2 args us hs with ⟨g, hg⟩
          exact ⟨g + 1, by simp [substitute, hg, applyMap]⟩
      | Predicate m args =>
        cases hs : substList f args θ with
        | none => simp [substitute, hs] at h
        | some us =>
          simp only [substitute, hs, Option.some.injEq] at h
          subst h
          rcases ih.2 args us hs with ⟨g, hg⟩
          exact ⟨g + 1, by simp [substitute, hg, applyMap]⟩
    · intro l us h
      cases l with
      | nil =>
        simp [substList] at h
        subst h
        exact ⟨1, by simp [substList, applyMapList]⟩
      | cons a as =>
        cases ha : substitute f a θ with
        | none => simp [substList, ha] at h
        | some u =>
          cases has : substList f as θ with
          | none => simp [substList, ha, has] at h
          | some vs =>
            simp only [substList, ha, has, Option.some.injEq] at h
            subst h
            rcases ih.1 a u ha with ⟨g1, hg1⟩
            rcases ih.2 as vs has with ⟨g2, hg2⟩
            refine ⟨max g1 g2 + 1, ?_⟩
            have k1 := substitute_mono (Nat.le_max_left g1 g2) hg1
            have k2 := substList_mono (Nat.le_max_right g1 g2) hg2
            simp [substList, k1, k2, applyMapList]

/-- The empty substitution is well-formed. -/
theorem WFS_nil : WFS [] := by
  intro p hp
  cases hp

/-- Adding a fresh, occurs-check-passing binding preserves
well-formedness. -/
theorem WFS_extend {θ : Subst} {n : String} {x x2 : Expr} {F0 : Nat}
    (hθ : WFS θ) (hn : lookupSubst θ n = none)
    (hx : substitute F0 x θ = some x2) (hnx : n ∉ varsE x2) :
    WFS (θ ++ [(n, x)]) := by
  intro p hp
  rcases List.mem_append.mp hp with hp | hp
  · rcases hθ p hp with ⟨f, u, hu⟩
    rcases (substitute_extend_all θ n x x2 F0 hx hn hnx f).1 p.2 u hu with ⟨g, hg⟩
    exact ⟨g, _, hg⟩
  · simp only [List.mem_singleton] at hp
    subst hp
    exact ⟨F0, x2, (substitute_append_irrelevant_all n x F0).1 x θ x2 hx hnx hn⟩

/-- The new binding resolves to the occurs-checked value. -/
theorem extend_resolves {θ : Subst} {n : String} {x x2 : Expr} {F0 : Nat}
    (hn : lookupSubst θ n = none)
    (hx : substitute F0 x θ = some x2) (hnx : n ∉ varsE x2) :
    Rsub (θ ++ [(n, x)]) (Expr.Variable n) x2 ∧ Rsub (θ ++ [(n, x)]) x x2 := by
  have hxext : substitute F0 x (θ ++ [(n, x)]) = some x2 :=
    (substitute_append_irrelevant_all n x F0).1 x θ x2 hx hnx hn
  constructor
  · refine ⟨F0 + 1, ?_⟩
    have hl2 : lookupSubst (θ ++ [(n, x)]) n = some x := by
      rw [lookupSubst_append, hn]
      simp [lookupSubst]
    simp [substitute, hl2, hxext]
  · exact ⟨F0, hxext⟩

/-- Build common resolvents for two pointwise-unifiable argument lists. -/
theorem common_resolvents {θ : Subst} :
    ∀ (as bs : List Expr), as.length = bs.length →
      (∀ p ∈ List.zip as bs, ∃ w, Rsub θ p.1 w ∧ Rsub θ p.2 w) →
      ∃ ws, (∃ g, substList g as θ = some ws) ∧ (∃ g, substList g bs θ = some ws) := by
  intro as
  induction as with
  | nil =>
    intro bs hlen _
    cases bs with
    | nil => exact ⟨[], ⟨1, rfl⟩, ⟨1, rfl⟩⟩
    | cons b bs => simp at hlen
  | cons a as ih =>
    intro bs hlen hp
    cases bs with
    | nil => simp at hlen
    | cons b bs =>
      rcases hp (a, b) (by simp [List.zip_cons_cons]) with ⟨w, ⟨f1, h1⟩, ⟨f2, h2⟩⟩
      rcases ih bs (by simpa using hlen)
        (fun p hmem => hp p (by simp [List.zip_cons_cons, hmem])) with ⟨ws, ⟨g1, hg1⟩, ⟨g2, hg2⟩⟩
      refine ⟨w :: ws, ⟨max f1 g1 + 1, ?_⟩, ⟨max f2 g2 + 1, ?_⟩⟩
      · have k1 := substitute_mono (Nat.le_max_left f1 g1) h1
        have k2 := substList_mono (Nat.le_max_right f1 g1) hg1
        simp [substList, k1, k2]
      · have k1 := substitute_mono (Nat.le_max_left f2 g2) h2
        have k2 := substList_mono (Nat.le_max_right f2 g2) hg2
        simp [substList, k1, k2]

/-! ### The unify invariant -/

/-- Lift a resolution along an extension. -/
theorem Rsub_lift {θ θ2 : Subst} {t u w : Expr} (h : Rsub θ t u) (hext : SubExt θ θ2)
    (hw : Rsub θ2 u w) : Rsub θ2 t w := by
  rcases h with ⟨f, hf⟩
  rcases hw with ⟨g, hg⟩
  exact substitute_factor hf hext hg

/-- Main invariant of unification: the result extends the input
substitution; moreover, starting from a well-formed substitution, the
result is well-formed and gives the two arguments a common resolved
value. -/
theorem unify_inv : ∀ F : Nat,
    (∀ x y θ θ2, unify F x y θ = some (some θ2) →
      SubExt θ θ2 ∧ (WFS θ → WFS θ2 ∧ ∃ w, Rsub θ2 x w ∧ Rsub θ2 y w)) ∧
    (∀ var x θ θ2, unify_var F var x θ = some (some θ2) →
      SubExt θ θ2 ∧ (WFS θ → WFS θ2 ∧ ∃ w, Rsub θ2 var w ∧ Rsub θ2 x w)) ∧
    (∀ as bs θ θ2, unifyArgs F as bs θ = some (some θ2) →
      SubExt θ θ2 ∧ (WFS θ → WFS θ2 ∧
        ∀ p ∈ List.zip as bs, ∃ w, Rsub θ2 p.1 w ∧ Rsub θ2 p.2 w)) := by
  intro F
  induction F with
  | zero =>
    refine ⟨?_, ?_, ?_⟩
    · intro x y θ θ2 h; simp [unify] at h
    · intro var x θ θ2 h; simp [unify_var] at h
    · intro as bs θ θ2 h; simp [unifyArgs] at h
  | succ f ih =>
    refine ⟨?_, ?_, ?_⟩
    · -- unify
      intro x y θ θ2 h
      by_cases hxy : x = y
      · simp only [unify, if_pos hxy, Option.some.injEq] at h
        subst h
        refine ⟨SubExt.refl θ, fun hw => ⟨hw, ?_⟩⟩
        rcases hw.total x with ⟨fx, u, hu⟩
        exact ⟨u, ⟨fx, hu⟩, hxy ▸ ⟨fx, hu⟩⟩
      · cases hsx : substitute (f + 1) x θ with
        | none => simp [unify, if_neg hxy, hsx] at h
        | some x2 =>
          cases hsy : substitute (f + 1) y θ with
          | none => simp [unify, if_neg hxy, hsx, hsy] at h
          | some y2 =>
            simp only [unify, if_neg hxy, hsx, hsy] at h
            cases x2 with
            | Variable n =>
              simp only [is_variable, if_true] at h
              obtain ⟨hext, hrest⟩ := ih.2.1 _ _ _ _ h
              refine ⟨hext, fun hw => ?_⟩
              obtain ⟨hw2, w, hv1, hv2⟩ := hrest hw
              exact ⟨hw2, w, Rsub_lift ⟨f + 1, hsx⟩ hext hv1, Rsub_lift ⟨f + 1, hsy⟩ hext hv2⟩
            | Constant c =>
              simp only [is_variable] at h
              cases y2 with
              | Variable m =>
                simp only [is_variable, if_true] at h
                obtain ⟨hext, hrest⟩ := ih.2.1 _ _ _ _ h
                refine ⟨hext, fun hw => ?_⟩
                obtain ⟨hw2, w, hv1, hv2⟩ := hrest hw
                exact ⟨hw2, w, Rsub_lift ⟨f + 1, hsx⟩ hext hv2, Rsub_lift ⟨f + 1, hsy⟩ hext hv1⟩
              | Constant d => simp [is_variable] at h
              | Function n2 bs => simp [is_variable] at h
              | Predicate n2 bs => simp [is_variable] at h
            | Function n1 as =>
              simp only [is_variable] at h
              cases y2 with
              | Variable m =>
                simp only [is_variable, if_true] at h
                obtain ⟨hext, hrest⟩ := ih.2.1 _ _ _ _ h
                refine ⟨hext, fun hw => ?_⟩
                obtain ⟨hw2, w, hv1, hv2⟩ := hrest hw
                exact ⟨hw2, w, Rsub_lift ⟨f + 1, hsx⟩ hext hv2, Rsub_lift ⟨f + 1, hsy⟩ hext hv1⟩
              | Constant d => simp [is_variable] at h
              | Predicate n2 bs => simp [is_variable] at h
              | Function n2 bs =>
                simp only [is_variable, if_false] at h
                by_cases hgd : n1 = n2 ∧ as.length = bs.length
                · rw [if_pos hgd] at h
                  obtain ⟨hext, hrest⟩ := ih.2.2 _ _ _ _ h
                  refine ⟨hext, fun hw => ?_⟩
                  obtain ⟨hw2, hpairs⟩ := hrest hw
                  rcases common_resolvents as bs hgd.2 hpairs with ⟨ws, ⟨g1, hg1⟩, ⟨g2, hg2⟩⟩
                  refine ⟨hw2, Expr.Function n1 ws, ?_, ?_⟩
                  · refine Rsub_lift ⟨f + 1, hsx⟩ hext ⟨g1 + 1, ?_⟩
                    simp [substitute, hg1]
                  · refine Rsub_lift ⟨f + 1, hsy⟩ hext ⟨g2 + 1, ?_⟩
                    rw [hgd.1]
                    simp [substitute, hg2]
                · rw [if_neg hgd] at h
                  simp at h
            | Predicate n1 as =>
              simp only [is_variable] at h
              cases y2 with
              | Variable m =>
                simp only [is_variable, if_true] at h
                obtain ⟨hext, hrest⟩ := ih.2.1 _ _ _ _ h
                refine ⟨hext, fun hw => ?_⟩
                obtain ⟨hw2, w, hv1, hv2⟩ := hrest hw
                exact ⟨hw2, w, Rsub_lift ⟨f + 1, hsx⟩ hext hv2, Rsub_lift ⟨f + 1, hsy⟩ hext hv1⟩
              | Constant d => simp [is_variable] at h
              | Function n2 bs => simp [is_variable] at h
              | Predicate n2 bs =>
                simp only [is_variable, if_false] at h
                by_cases hgd : n1 = n2 ∧ as.length = bs.length
                · rw [if_pos hgd] at h
                  obtain ⟨hext, hrest⟩ := ih.2.2 _ _ _ _ h
                  refine ⟨hext, fun hw => ?_⟩
                  obtain ⟨hw2, hpairs⟩ := hrest hw
                  rcases common_resolvents as bs hgd.2 hpairs with ⟨ws, ⟨g1, hg1⟩, ⟨g2, hg2⟩⟩
                  refine ⟨hw2, Expr.Predicate n1 ws, ?_, ?_⟩
                  · refine Rsub_lift ⟨f + 1, hsx⟩ hext ⟨g1 + 1, ?_⟩
                    simp [substitute, hg1]
                  · refine Rsub_lift ⟨f + 1, hsy⟩ hext ⟨g2 + 1, ?_⟩
                    rw [hgd.1]
                    simp [substitute, hg2]
                · rw [if_neg hgd] at h
                  simp at h
    · -- unify_var
      intro var x θ θ2 h
      cases var with
      | Constant c => simp [unify_var] at h
      | Function m args => simp [unify_var] at h
      | Predicate m args => simp [unify_var] at h
      | Variable n =>
        cases hln : lookupSubst θ n with
        | some t =>
          simp only [unify_var, hln] at h
          obtain ⟨hext, hrest⟩ := ih.1 _ _ _ _ h
          refine ⟨hext, fun hw => ?_⟩
          obtain ⟨hw2, w, h1, h2⟩ := hrest hw
          refine ⟨hw2, w, ?_, h2⟩
          rcases h1 with ⟨g, hg⟩
          exact ⟨g + 1, by simp [substitute, hext.lookup hln, hg]⟩
        | none =>
          cases hvx : (match x with | Expr.Variable m => lookupSubst θ m | _ => none) with
          | some t =>
            simp only [unify_var, hln, hvx] at h
            obtain ⟨hext, hrest⟩ := ih.1 _ _ _ _ h
            refine ⟨hext, fun hw => ?_⟩
            obtain ⟨hw2, w, h1, h2⟩ := hrest hw
            refine ⟨hw2, w, h1, ?_⟩
            cases x with
            | Variable m =>
              simp only at hvx
              rcases h2 with ⟨g, hg⟩
              exact ⟨g + 1, by simp [substitute, hext.lookup hvx, hg]⟩
            | Constant c => simp at hvx
            | Function m2 args => simp at hvx
            | Predicate m2 args => simp at hvx
          | none =>
            cases hocc : occurs_check (f + 1) (Expr.Variable n) x θ with
            | none => simp [unify_var, hln, hvx, hocc] at h
            | some b =>
              cases b with
              | true => simp [unify_var, hln, hvx, hocc] at h
              | false =>
                simp only [unify_var, hln, hvx, hocc, Option.some.injEq] at h
                subst h
                refine ⟨⟨[(n, x)], rfl⟩, fun hw => ?_⟩
                rcases occurs_check_some_sub hocc with ⟨x2, hx2⟩
                have hnsub := occurs_false_not_subterm (f + 1) (Expr.Variable n) x θ x2 hocc hx2
                have hnx : n ∉ varsE x2 := by
                  intro hmem
                  rcases (varsE_subterm x2 n).mp hmem with h1 | h1
                  · exact hnsub (Or.inl h1.symm)
                  · exact hnsub (Or.inr h1)
                rcases extend_resolves hln hx2 hnx with ⟨hr1, hr2⟩
                exact ⟨WFS_extend hw hln hx2 hnx, x2, hr1, hr2⟩
    · -- unifyArgs
      intro as bs θ θ2 h
      cases as with
      | nil =>
        simp only [unifyArgs, Option.some.injEq] at h
        subst h
        exact ⟨SubExt.refl θ, fun hw => ⟨hw, by simp⟩⟩
      | cons a as2 =>
        cases bs with
        | nil =>
          simp only [unifyArgs, Option.some.injEq] at h
          subst h
          exact ⟨SubExt.refl θ, fun hw => ⟨hw, by simp⟩⟩
        | cons b bs2 =>
          cases hu : unify f a b θ with
          | none => simp [unifyArgs, hu] at h
          | some r =>
            cases r with
            | none => simp [unifyArgs, hu] at h
            | some θ1 =>
              simp only [unifyArgs, hu] at h
              obtain ⟨hext1, hrest1⟩ := ih.1 _ _ _ _ hu
              obtain ⟨hext2, hrest2⟩ := ih.2.2 _ _ _ _ h
              refine ⟨hext1.trans hext2, fun hw => ?_⟩
              obtain ⟨hw1, w, hwa, hwb⟩ := hrest1 hw
              obtain ⟨hw2, hpairs⟩ := hrest2 hw1
              refine ⟨hw2, ?_⟩
              intro p hp
              rw [List.zip_cons_cons] at hp
              rcases List.mem_cons.mp hp with rfl | hp2
              · rcases hw2.total w with ⟨g, w2, hg⟩
                exact ⟨w2, Rsub_lift hwa hext2 ⟨g, hg⟩, Rsub_lift hwb hext2 ⟨g, hg⟩⟩
              · exact hpairs p hp2

/-! ### Claims about unification -/

/-- C1: unification soundness.  If `unify(x, y, {})` succeeds with θ, then
`substitute(x, θ) == substitute(y, θ)`. -/
theorem unify_sound (f : Nat) (x y : Expr) (θ : Subst)
    (h : unify f x y [] = some (some θ)) :
    ∃ g u, substitute g x θ = some u ∧ substitute g y θ = some u := by
  obtain ⟨_, hrest⟩ := ((unify_inv f).1 x y [] θ h)
  obtain ⟨_, w, ⟨g1, h1⟩, ⟨g2, h2⟩⟩ := hrest WFS_nil
  exact ⟨max g1 g2, w,
    substitute_mono (Nat.le_max_left g1 g2) h1,
    substitute_mono (Nat.le_max_right g1 g2) h2⟩

theorem unify_sound_witness :
    ∃ g u, substitute g (Expr.Variable "a") [("a", Expr.Constant "b")] = some u ∧
      substitute g (Expr.Constant "b") [("a", Expr.Constant "b")] = some u :=
  unify_sound 10 (Expr.Variable "a") (Expr.Constant "b") [("a", Expr.Constant "b")]
    (by decide)

/-- C10: `unify` never mutates the given θ: on success the returned
substitution contains every binding of θ unchanged — it is θ with new
bindings appended (and in the pure embedding a failure leaves the caller's
θ untouched by construction). -/
theorem unify_extends (f : Nat) (x y : Expr) (θ θ2 : Subst)
    (h : unify f x y θ = some (some θ2)) :
    ∃ δ, θ2 = θ ++ δ :=
  ((unify_inv f).1 x y θ θ2 h).1

theorem unify_extends_witness :
    ∃ δ, [("c", Expr.Constant "d"), ("a", Expr.Constant "b")] =
      [("c", Expr.Constant "d")] ++ δ :=
  unify_extends 10 (Expr.Variable "a") (Expr.Constant "b") [("c", Expr.Constant "d")]
    [("c", Expr.Constant "d"), ("a", Expr.Constant "b")] (by decide)

/-- C7: substitution idempotence under full resolution, for substitutions
produced by unification: `substitute(substitute(t, θ), θ) == substitute(t, θ)`. -/
theorem substitute_idem_unify (f0 : Nat) (a b : Expr) (θ0 θ : Subst)
    (_hθ : unify f0 a b θ0 = some (some θ)) :
    ∀ f t u, substitute f t θ = some u → substitute f u θ = some u :=
  fun _ _ _ h => substitute_idem h

theorem substitute_idem_unify_witness :
    substitute 5 (Expr.Constant "b") [("a", Expr.Constant "b")] = some (Expr.Constant "b") :=
  substitute_idem_unify 10 (Expr.Variable "a") (Expr.Constant "b") [] [("a", Expr.Constant "b")]
    (by decide) 5 (Expr.Variable "a") (Expr.Constant "b") (by decide)

/-- A proper sub-term is strictly smaller. -/
theorem strictSubterm_size {s t : Expr} (h : StrictSubterm s t) : sizeOf s < sizeOf t := by
  induction h with
  | fnArg hmem =>
    have := List.sizeOf_lt_of_mem hmem
    simp only [Expr.Function.sizeOf_spec]
    omega
  | fnDeep hmem _ ihs =>
    have := List.sizeOf_lt_of_mem hmem
    simp only [Expr.Function.sizeOf_spec]
    omega
  | pdArg hmem =>
    have := List.sizeOf_lt_of_mem hmem
    simp only [Expr.Predicate.sizeOf_spec]
    omega
  | pdDeep hmem _ ihs =>
    have := List.sizeOf_lt_of_mem hmem
    simp only [Expr.Predicate.sizeOf_spec]
    omega

/-- C4: occurs-check safety.  For a variable `v` and a term `t` containing
`v` as a proper sub-term, `unify(v, t, {})` fails (with enough fuel, it
returns the `FAIL` value, never a substitution). -/
theorem occurs_check_safety (v : String) (t : Expr)
    (h : StrictSubterm (Expr.Variable v) t) :
    ∃ f0, ∀ f, f0 ≤ f → unify f (Expr.Variable v) t [] = some none := by
  refine ⟨sizeOf (Expr.Variable v) + sizeOf t + 1, ?_⟩
  intro f hf
  have hvpos : 1 ≤ sizeOf (Expr.Variable v) := by
    simp only [Expr.Variable.sizeOf_spec]; omega
  have htpos : 1 ≤ sizeOf t := by
    cases t <;> simp <;> omega
  obtain ⟨f1, rfl⟩ : ∃ f1, f = f1 + 1 := ⟨f - 1, by omega⟩
  have hne : ¬(Expr.Variable v = t) := by
    intro he
    have := strictSubterm_size h
    rw [he] at this
    omega
  have hsx : substitute (f1 + 1) (Expr.Variable v) [] = some (Expr.Variable v) :=
    substitute_nil _ (by omega)
  have hsy : substitute (f1 + 1) t [] = some t := substitute_nil _ (by omega)
  obtain ⟨f2, rfl⟩ : ∃ f2, f1 = f2 + 1 := ⟨f1 - 1, by omega⟩
  have hocc : occurs_check (f2 + 1) (Expr.Variable v) t [] = some true :=
    (occurs_true_nil (f2 + 1)).1 (Expr.Variable v) t (by omega) (Or.inr h)
  simp only [unify, if_neg hne, hsx, hsy, is_variable, if_true]
  have hvy2 : (match t with | Expr.Variable m => (none : Option Expr) | _ => none) = none := by
    cases t <;> rfl
  simp only [unify_var, lookupSubst, hvy2, hocc]

theorem occurs_check_safety_witness :
    ∃ f0, ∀ f, f0 ≤ f →
      unify f (Expr.Variable "v") (Expr.Function "g" [Expr.Variable "v"]) [] = some none :=
  occurs_check_safety "v" (Expr.Function "g" [Expr.Variable "v"])
    (StrictSubterm.fnArg (by simp))

/-! ### Knowledge-base index consistency -/

/-- The bucket of the index keyed by (predicate name, arity). -/
def bucketOf (kb : KnowledgeBase) (n : String) (a : Nat) : List Clause :=
  match lookupIndex kb.index n with
  | none => []
  | some inner =>
    match lookupArity inner a with
    | none => []
    | some cls => cls

theorem lookupArity_addToInner (ar : Nat) (cl : Clause) :
    ∀ (inner : List (Nat × List Clause)) (a : Nat),
      lookupArity (addToInner ar cl inner) a =
        if a = ar then some ((lookupArity inner ar).getD [] ++ [cl])
        else lookupArity inner a := by
  intro inner
  induction inner with
  | nil =>
    intro a
    by_cases ha : a = ar
    · simp [addToInner, lookupArity, ha]
    · simp [addToInner, lookupArity, ha, Ne.symm ha]
  | cons p rest ih =>
    intro a
    rcases p with ⟨b, cls⟩
    by_cases hb : b = ar
    · subst hb
      by_cases ha : a = b
      · subst ha
        simp [addToInner, lookupArity]
      · simp [addToInner, lookupArity, ha, Ne.symm ha]
    · by_cases ha : b = a
      · subst ha
        simp [addToInner, lookupArity, hb, Ne.symm hb]
      · simp [addToInner, lookupArity, hb, ha, ih]

theorem lookupIndex_addToIndex (name : String) (ar : Nat) (cl : Clause) :
    ∀ (idx : Index) (n : String),
      lookupIndex (addToIndex name ar cl idx) n =
        if n = name then some (addToInner ar cl ((lookupIndex idx name).getD []))
        else lookupIndex idx n := by
  intro idx
  induction idx with
  | nil =>
    intro n
    by_cases hn : n = name
    · simp [addToIndex, lookupIndex, addToInner, hn]
    · simp [addToIndex, lookupIndex, hn, Ne.symm hn]
  | cons p rest ih =>
    intro n
    rcases p with ⟨m, inner⟩
    by_cases hm : m = name
    · subst hm
      by_cases hn : n = m
      · subst hn
        simp [addToIndex, lookupIndex]
      · simp [addToIndex, lookupIndex, hn, Ne.symm hn]
    · by_cases hn : m = n
      · subst hn
        simp [addToIndex, lookupIndex, hm, Ne.symm hm]
      · simp [addToIndex, lookupIndex, hm, hn, ih]

theorem bucketOf_add_clause (kb : KnowledgeBase) (cl : Clause) (n : String) (a : Nat) :
    bucketOf (add_clause kb cl) n a =
      if n = exprName cl.head ∧ a = (exprArgs cl.head).length
      then bucketOf kb n a ++ [cl] else bucketOf kb n a := by
  by_cases hn : n = exprName cl.head
  · subst hn
    by_cases ha : a = (exprArgs cl.head).length
    · subst ha
      cases hidx : lookupIndex kb.index (exprName cl.head) with
      | none =>
        simp [bucketOf, add_clause, lookupIndex_addToIndex, lookupArity_addToInner,
          hidx, lookupArity]
      | some inner =>
        cases har : lookupArity inner (exprArgs cl.head).length with
        | none =>
          simp [bucketOf, add_clause, lookupIndex_addToIndex, lookupArity_addToInner,
            hidx, har]
        | some cls =>
          simp [bucketOf, add_clause, lookupIndex_addToIndex, lookupArity_addToInner,
            hidx, har]
    · cases hidx : lookupIndex kb.index (exprName cl.head) with
      | none =>
        simp [bucketOf, add_clause, lookupIndex_addToIndex, lookupArity_addToInner,
          hidx, ha, Ne.symm ha, lookupArity]
      | some inner =>
        simp [bucketOf, add_clause, lookupIndex_addToIndex, lookupArity_addToInner,
          hidx, ha]
  · have hcond : ¬(n = exprName cl.head ∧ a = (exprArgs cl.head).length) := fun hc => hn hc.1
    simp [bucketOf, add_clause, lookupIndex_addToIndex, hn, hcond]

/-- The signature test used by the index: same head name, same arity. -/
def sigMatch (n : String) (a : Nat) (c : Clause) : Bool :=
  exprName c.head == n && (exprArgs c.head).length == a

/-- C9: after any sequence of `add_clause` calls the index is consistent
with the clause sequence: the clause list records exactly the insertions
in order, and the bucket keyed by (name, arity) holds exactly the inserted
clauses with that head signature, in insertion order — so every clause is
in exactly the one bucket keyed by its head's name and argument count. -/
theorem kb_index_consistent (cs : List Clause) :
    (mkKB cs).clauses = cs ∧
    ∀ n a, bucketOf (mkKB cs) n a = cs.filter (sigMatch n a) := by
  suffices h : ∀ (cs : List Clause) (kb : KnowledgeBase) (cs0 : List Clause),
      kb.clauses = cs0 → (∀ n a, bucketOf kb n a = cs0.filter (sigMatch n a)) →
      (cs.foldl add_clause kb).clauses = cs0 ++ cs ∧
      ∀ n a, bucketOf (cs.foldl add_clause kb) n a = (cs0 ++ cs).filter (sigMatch n a) by
    have := h cs emptyKB [] rfl (by intro n a; simp [bucketOf, emptyKB, lookupIndex])
    simpa [mkKB] using this
  intro cs
  induction cs with
  | nil =>
    intro kb cs0 h1 h2
    simpa using ⟨h1, h2⟩
  | cons c cs ih =>
    intro kb cs0 h1 h2
    have hstep1 : (add_clause kb c).clauses = cs0 ++ [c] := by
      simp [add_clause, h1]
    have hstep2 : ∀ n a, bucketOf (add_clause kb c) n a = (cs0 ++ [c]).filter (sigMatch n a) := by
      intro n a
      rw [bucketOf_add_clause, List.filter_append, h2]
      by_cases hc : n = exprName c.head ∧ a = (exprArgs c.head).length
      · rw [if_pos hc]
        have : sigMatch n a c = true := by
          simp [sigMatch, hc.1, hc.2]
        simp [List.filter, this]
      · rw [if_neg hc]
        have : sigMatch n a c = false := by
          simp only [sigMatch, Bool.and_eq_false_iff, beq_eq_false_iff_ne, ne_eq]
          by_cases h1c : exprName c.head = n
          · right
            intro h2c
            exact hc ⟨h1c.symm, h2c.symm⟩
          · left
            exact h1c
        simp [List.filter, this]
    have := ih (add_clause kb c) (cs0 ++ [c]) hstep1 hstep2
    simpa using this

/-- Fetching candidate clauses is reading the (goal name, goal arity)
bucket. -/
theorem fetch_eq_bucketOf (kb : KnowledgeBase) (goal : Expr) :
    fetch_clauses_for_goal kb goal = bucketOf kb (exprName goal) (exprArgs goal).length := by
  unfold fetch_clauses_for_goal bucketOf
  cases lookupIndex kb.index (exprName goal) with
  | none => rfl
  | some inner =>
    cases lookupArity inner (exprArgs goal).length with
    | none => rfl
    | some cls => rfl

/-! ### C5: unknown predicate / wrong arity -/

/-- C5: a goal whose predicate name is unknown to the knowledge base, or
whose arity differs from every stored clause with that name, has no
candidate clauses (`fetch_clauses_for_goal` returns the empty sequence)
and `ask` yields the empty result sequence — a defined value, not an
exception. -/
theorem ask_unknown_predicate (cs : List Clause) (goal : Expr)
    (h : ∀ c ∈ cs, ¬(exprName c.head = exprName goal ∧
        (exprArgs c.head).length = (exprArgs goal).length)) :
    fetch_clauses_for_goal (mkKB cs) goal = [] ∧
    ∃ f0, ∀ f, f0 ≤ f → ask (mkKB cs) f goal = some [] := by
  have hfetch : fetch_clauses_for_goal (mkKB cs) goal = [] := by
    rw [fetch_eq_bucketOf, (kb_index_consistent cs).2]
    refine List.filter_eq_nil_iff.mpr ?_
    intro c hc
    simp only [sigMatch, Bool.and_eq_true, beq_iff_eq, not_and]
    intro h1 h2
    exact absurd ⟨h1, h2⟩ (h c hc)
  refine ⟨hfetch, sizeOf goal + 2, ?_⟩
  intro f hf
  obtain ⟨f1, rfl⟩ : ∃ f1, f = f1 + 1 := ⟨f - 1, by omega⟩
  obtain ⟨f2, rfl⟩ : ∃ f2, f1 = f2 + 1 := ⟨f1 - 1, by omega⟩
  have hg : substitute (f2 + 1 + 1) goal [] = some goal := substitute_nil _ (by omega)
  have hvm : visitedMem (reprE goal, []) [] = false := rfl
  unfold ask
  simp [fol_bc_or, hg, hvm, hfetch, fol_bc_clauses]

theorem ask_unknown_predicate_witness :
    fetch_clauses_for_goal section8KB (Expr.Predicate "father" [Expr.Constant "abe"]) = [] ∧
    ∃ f0, ∀ f, f0 ≤ f →
      ask section8KB f (Expr.Predicate "father" [Expr.Constant "abe"]) = some [] :=
  ask_unknown_predicate section8Clauses (Expr.Predicate "father" [Expr.Constant "abe"])
    (by decide)

/-! ### C6: the section-8 ancestor query -/

/-- C6: against the section-8 knowledge base, `ask(ancestor(X, bart))`
yields exactly three substitutions, binding X to `homer`, then `mona`,
then `abe`, in that order. -/
theorem ask_ancestor_bart :
    ((ask section8KB 40 (Expr.Predicate "ancestor" [Expr.Variable "x", Expr.Constant "bart"])).map
      (fun sols => sols.map (fun θ => substitute 40 (Expr.Variable "x") θ))) =
    some [some (Expr.Constant "homer"), some (Expr.Constant "mona"),
      some (Expr.Constant "abe")] := by
  decide

/-! ### C3: standardize-apart renaming -/

theorem varsL_renameList (c : Nat) :
    ∀ l : List Expr, (∀ a ∈ l, varsE (renameExpr c a) =
        (varsE a).map (fun v => "_" ++ v ++ Nat.repr c)) →
      varsL (renameList c l) = (varsL l).map (fun v => "_" ++ v ++ Nat.repr c) := by
  intro l
  induction l with
  | nil => intro _; rfl
  | cons a as ih =>
    intro h
    simp only [renameList, varsL, List.map_append]
    rw [h a (List.mem_cons_self _ _), ih (fun b hb => h b (List.mem_cons_of_mem _ hb))]

/-- The variables of a renamed term are the renamed variables. -/
theorem varsE_rename (c : Nat) :
    ∀ t : Expr, varsE (renameExpr c t) = (varsE t).map (fun v => "_" ++ v ++ Nat.repr c) := by
  refine Expr.indOn ?_ ?_ ?_ ?_
  · intro n; rfl
  · intro n; rfl
  · intro n args ih
    simp only [renameExpr, varsE]
    exact varsL_renameList c args ih
  · intro n args ih
    simp only [renameExpr, varsE]
    exact varsL_renameList c args ih

/-- The variable names of a standardized-apart copy at counter `c` are
the original names renamed with the incremented counter. -/
theorem clauseVars_standardize (cl : Clause) (c : Nat) :
    clauseVars (standardize_apart cl c).1 =
      (clauseVars cl).map (fun v => "_" ++ v ++ Nat.repr (c + 1)) := by
  simp only [standardize_apart, clauseVars, List.map_append, varsE_rename]
  rw [varsL_renameList (c + 1) cl.body (fun a _ => varsE_rename (c + 1) a)]

theorem toDigitsCore_getLast (b : Nat) : ∀ (fuel n : Nat) (d : Char) (ds : List Char),
    (Nat.toDigitsCore b fuel n (d :: ds)).getLast? = (d :: ds).getLast? := by
  intro fuel
  induction fuel with
  | zero => intro n d ds; rfl
  | succ f ih =>
    intro n d ds
    simp only [Nat.toDigitsCore]
    by_cases hn : n / b = 0
    · simp [hn, List.getLast?_cons_cons]
    · rw [if_neg hn, ih]
      exact List.getLast?_cons_cons

theorem toDigits_getLast (n : Nat) :
    (Nat.toDigits 10 n).getLast? = some (Nat.digitChar (n % 10)) := by
  unfold Nat.toDigits
  simp only [Nat.toDigitsCore]
  by_cases hn : n / 10 = 0
  · simp [hn]
  · rw [if_neg hn, toDigitsCore_getLast]
    rfl

theorem repr_lastChar (k : Nat) :
    (Nat.repr k).data.getLast? = some (Nat.digitChar (k % 10)) := by
  show ((Nat.toDigits 10 k).asString).data.getLast? = some (Nat.digitChar (k % 10))
  exact toDigits_getLast k

theorem digitChar_inj_fin : ∀ a b : Fin 10, Nat.digitChar a.val = Nat.digitChar b.val → a = b := by
  decide

/-- Fresh names minted at counters with different last digits differ. -/
theorem fresh_name_ne {n1 n2 : String} {c1 c2 : Nat} (h10 : c1 % 10 ≠ c2 % 10) :
    "_" ++ n1 ++ Nat.repr c1 ≠ "_" ++ n2 ++ Nat.repr c2 := by
  intro he
  have hd : ("_" ++ n1 ++ Nat.repr c1).data = ("_" ++ n2 ++ Nat.repr c2).data := by rw [he]
  simp only [String.data_append] at hd
  have h1 := congrArg List.getLast? hd
  simp only [List.getLast?_append, repr_lastChar, Option.or_some, Option.some.injEq] at h1
  have hlt1 : c1 % 10 < 10 := Nat.mod_lt _ (by omega)
  have hlt2 : c2 % 10 < 10 := Nat.mod_lt _ (by omega)
  have := digitChar_inj_fin ⟨c1 % 10, hlt1⟩ ⟨c2 % 10, hlt2⟩ h1
  exact h10 (congrArg Fin.val this)

/-- C3 (as stated) is false: renaming does not produce globally unique
names across all renamings of a run.  At counters 1 and 11 (the second
reachable from the first by ten intervening renamings), the variable `x1`
and the variable `x` are both renamed to `_x12`. -/
theorem standardize_apart_not_globally_unique :
    ¬(∀ (cl1 cl2 : Clause) (c1 c2 : Nat), c1 ≠ c2 →
      ∀ v, v ∈ clauseVars (standardize_apart cl1 c1).1 →
        v ∉ clauseVars (standardize_apart cl2 c2).1) := by
  intro h
  exact h ⟨Expr.Predicate "p" [Expr.Variable "x1"], []⟩
    ⟨Expr.Predicate "p" [Expr.Variable "x"], []⟩ 1 11 (by decide) "_x12"
    (by decide) (by decide)

/-- C3 (amended): two standardized-apart copies of the same clause
produced by successive calls to `standardize_apart` (consecutive counter
values) share no variable names. -/
theorem standardize_apart_successive_disjoint (cl : Clause) (c : Nat) :
    ∀ v ∈ clauseVars (standardize_apart cl c).1,
      v ∉ clauseVars (standardize_apart cl (standardize_apart cl c).2).1 := by
  intro v hv hv2
  have hc2 : (standardize_apart cl c).2 = c + 1 := rfl
  rw [clauseVars_standardize] at hv
  rw [hc2, clauseVars_standardize] at hv2
  rcases List.mem_map.mp hv with ⟨n1, _, rfl⟩
  rcases List.mem_map.mp hv2 with ⟨n2, _, heq⟩
  exact fresh_name_ne (by omega) heq.symm

theorem standardize_apart_successive_disjoint_witness :
    "_x1" ∉ clauseVars
      (standardize_apart ⟨Expr.Predicate "p" [Expr.Variable "x"], []⟩
        (standardize_apart ⟨Expr.Predicate "p" [Expr.Variable "x"], []⟩ 0).2).1 :=
  standardize_apart_successive_disjoint ⟨Expr.Predicate "p" [Expr.Variable "x"], []⟩ 0
    "_x1" (by decide)

/-! ### Derivability helpers -/

/-- Derivability is closed under plain substitution. -/
theorem Derivable.applyMap {cs : List Clause} {a : Expr} (h : Derivable cs a)
    (σ : String → Expr) : Derivable cs (BC.applyMap σ a) := by
  induction h with
  | step cl σ0 hmem _ ih =>
    rw [applyMap_comp]
    refine Derivable.step cl (fun v => BC.applyMap σ (σ0 v)) hmem ?_
    intro b hb
    rw [← applyMap_comp]
    exact ih b hb

/-- The standardize-apart rename is a plain substitution by a variable
renaming. -/
theorem renameExpr_applyMap (c : Nat) :
    ∀ t : Expr, renameExpr c t =
      applyMap (fun v => Expr.Variable ("_" ++ v ++ Nat.repr c)) t := by
  refine Expr.indOn ?_ ?_ ?_ ?_
  · intro n; rfl
  · intro n; rfl
  · intro n args ih
    simp only [renameExpr, applyMap, Expr.Function.injEq, true_and]
    induction args with
    | nil => rfl
    | cons a as iha =>
      simp only [renameList, applyMapList, List.cons.injEq]
      exact ⟨ih a (List.mem_cons_self _ _), iha (fun b hb => ih b (List.mem_cons_of_mem _ hb))⟩
  · intro n args ih
    simp only [renameExpr, applyMap, Expr.Predicate.injEq, true_and]
    induction args with
    | nil => rfl
    | cons a as iha =>
      simp only [renameList, applyMapList, List.cons.injEq]
      exact ⟨ih a (List.mem_cons_self _ _), iha (fun b hb => ih b (List.mem_cons_of_mem _ hb))⟩

theorem mem_renameList {c : Nat} {b : Expr} :
    ∀ {l : List Expr}, b ∈ l → renameExpr c b ∈ renameList c l := by
  intro l
  induction l with
  | nil => intro h; cases h
  | cons a as ih =>
    intro h
    rcases List.mem_cons.mp h with rfl | h2
    · exact List.mem_cons_self _ _
    · exact List.mem_cons_of_mem _ (ih h2)

/-- Collect a uniform resolution fuel over a finite list of premises. -/
theorem uniform_fuel {θ : Subst} {cs : List Clause} (ρ : String → Expr) :
    ∀ L : List Expr,
      (∀ b ∈ L, ∃ wb, Rsub θ (applyMap ρ b) wb ∧ Derivable cs wb) →
      ∃ G, ∀ b ∈ L, ∃ wb, substitute G (applyMap ρ b) θ = some wb ∧ Derivable cs wb := by
  intro L
  induction L with
  | nil => intro _; exact ⟨0, by intro b hb; cases hb⟩
  | cons a as ih =>
    intro h
    rcases h a (List.mem_cons_self _ _) with ⟨wa, ⟨fa, hfa⟩, hda⟩
    rcases ih (fun b hb => h b (List.mem_cons_of_mem _ hb)) with ⟨G, hG⟩
    refine ⟨max fa G, ?_⟩
    intro b hb
    rcases List.mem_cons.mp hb with rfl | hb2
    · exact ⟨wa, substitute_mono (Nat.le_max_left fa G) hfa, hda⟩
    · rcases hG b hb2 with ⟨wb, hwb, hdb⟩
      exact ⟨wb, substitute_mono (Nat.le_max_right fa G) hwb, hdb⟩

/-- Deriving a resolved instance of a stored clause from resolved,
derivable instances of its body. -/
theorem derivable_of_instance {cs : List Clause} {cl : Clause} (hmem : cl ∈ cs)
    (ρ : String → Expr) {θ : Subst}
    (hbody : ∀ b ∈ cl.body, ∃ wb, Rsub θ (applyMap ρ b) wb ∧ Derivable cs wb)
    {w : Expr} (hw : Rsub θ (applyMap ρ cl.head) w) : Derivable cs w := by
  rcases hw with ⟨g0, hg0⟩
  rcases uniform_fuel ρ cl.body hbody with ⟨G0, hG0⟩
  set G := max g0 G0 with hGdef
  have hhead : substitute G (applyMap ρ cl.head) θ = some w :=
    substitute_mono (Nat.le_max_left g0 G0) hg0
  have hb2 : ∀ b ∈ cl.body, ∃ wb, substitute G (applyMap ρ b) θ = some wb ∧ Derivable cs wb := by
    intro b hb
    rcases hG0 b hb with ⟨wb, hwb, hdb⟩
    exact ⟨wb, substitute_mono (Nat.le_max_right g0 G0) hwb, hdb⟩
  have hσ := substitute_applyMap hhead
  rw [applyMap_comp] at hσ
  subst hσ
  refine Derivable.step cl _ hmem ?_
  intro b hb
  rcases hb2 b hb with ⟨wb, hwb, hdb⟩
  have hσb := substitute_applyMap hwb
  rw [applyMap_comp] at hσb
  rw [← hσb]
  exact hdb

/-- The index always fetches stored clauses (holds of every knowledge
base built by `add_clause`). -/
def FetchSub (kb : KnowledgeBase) : Prop :=
  ∀ g c, c ∈ fetch_clauses_for_goal kb g → c ∈ kb.clauses

theorem renameList_eq_nil {c : Nat} : ∀ {l : List Expr}, renameList c l = [] → l = [] := by
  intro l
  cases l with
  | nil => intro _; rfl
  | cons a as => intro h; simp [renameList] at h

/-- Soundness of the backward-chaining search: every yielded substitution
extends the input substitution, is well-formed, and makes each processed
goal resolve to an atom derivable from the stored clauses. -/
theorem search_sound : ∀ F : Nat,
    (∀ kb goal θ vis counter sols c2, FetchSub kb →
      fol_bc_or F kb goal θ vis counter = some (sols, c2) → WFS θ →
      ∀ θ2 ∈ sols, SubExt θ θ2 ∧ WFS θ2 ∧
        ∃ w, Rsub θ2 goal w ∧ Derivable kb.clauses w) ∧
    (∀ kb current cls θ vis counter sols c2, FetchSub kb → (∀ c ∈ cls, c ∈ kb.clauses) →
      fol_bc_clauses F kb current cls θ vis counter = some (sols, c2) → WFS θ →
      ∀ θ2 ∈ sols, SubExt θ θ2 ∧ WFS θ2 ∧
        ∃ w, Rsub θ2 current w ∧ Derivable kb.clauses w) ∧
    (∀ kb goals θ vis counter sols c2, FetchSub kb →
      fol_bc_and F kb goals θ vis counter = some (sols, c2) → WFS θ →
      ∀ θ2 ∈ sols, SubExt θ θ2 ∧ WFS θ2 ∧
        ∀ g ∈ goals, ∃ w, Rsub θ2 g w ∧ Derivable kb.clauses w) ∧
    (∀ kb rest θs vis counter sols c2, FetchSub kb →
      fol_bc_and_fold F kb rest θs vis counter = some (sols, c2) →
      (∀ θp ∈ θs, WFS θp) →
      ∀ θ2 ∈ sols, ∃ θp ∈ θs, SubExt θp θ2 ∧ WFS θ2 ∧
        ∀ g ∈ rest, ∃ w, Rsub θ2 g w ∧ Derivable kb.clauses w) := by
  intro F
  induction F with
  | zero =>
    refine ⟨?_, ?_, ?_, ?_⟩
    · intro kb goal θ vis counter sols c2 _ h; simp [fol_bc_or] at h
    · intro kb current cls θ vis counter sols c2 _ _ h; simp [fol_bc_clauses] at h
    · intro kb goals θ vis counter sols c2 _ h; simp [fol_bc_and] at h
    · intro kb rest θs vis counter sols c2 _ h; simp [fol_bc_and_fold] at h
  | succ f ih =>
    obtain ⟨ihor, ihcl, ihand, ihfold⟩ := ih
    refine ⟨?_, ?_, ?_, ?_⟩
    · -- fol_bc_or
      intro kb goal θ vis counter sols c2 hkb h hθ θ2 hθ2
      cases hsub : substitute (f + 1) goal θ with
      | none => simp [fol_bc_or, hsub] at h
      | some current =>
        simp only [fol_bc_or, hsub] at h
        cases hv : visitedMem (reprE current, θ) vis with
        | true =>
          simp only [hv, if_true, Option.some.injEq, Prod.mk.injEq] at h
          rw [← h.1] at hθ2
          cases hθ2
        | false =>
          simp only [hv, Bool.false_eq_true, if_false] at h
          obtain ⟨hext, hwfs, w, hrw, hder⟩ :=
            ihcl kb current _ θ _ counter sols c2 hkb (fun c hc => hkb goal c hc) h hθ θ2 hθ2
          exact ⟨hext, hwfs, w, Rsub_lift ⟨f + 1, hsub⟩ hext hrw, hder⟩
    · -- fol_bc_clauses
      intro kb current cls θ vis counter sols c2 hkb hcls h hθ θ2 hθ2
      cases cls with
      | nil =>
        simp only [fol_bc_clauses, Option.some.injEq, Prod.mk.injEq] at h
        rw [← h.1] at hθ2
        cases hθ2
      | cons cl rest =>
        simp only [fol_bc_clauses, standardize_apart] at h
        cases hu : unify (f + 1) (renameExpr (counter + 1) cl.head) current θ with
        | none => simp [hu] at h
        | some r =>
          cases r with
          | none =>
            simp only [hu] at h
            exact ihcl kb current rest θ vis (counter + 1) sols c2 hkb
              (fun c hc => hcls c (List.mem_cons_of_mem _ hc)) h hθ θ2 hθ2
          | some θ1 =>
            simp only [hu] at h
            obtain ⟨hext1, hrest1⟩ := (unify_inv (f + 1)).1 _ _ _ _ hu
            obtain ⟨hwfs1, w0, hw0h, hw0c⟩ := hrest1 hθ
            cases hb : (renameList (counter + 1) cl.body).isEmpty with
            | true =>
              simp only [hb, if_true] at h
              cases hrest : fol_bc_clauses f kb current rest θ vis (counter + 1) with
              | none => simp [hrest] at h
              | some q =>
                obtain ⟨sols2, c4⟩ := q
                simp only [hrest, Option.some.injEq, Prod.mk.injEq] at h
                rw [← h.1] at hθ2
                rcases List.mem_cons.mp hθ2 with rfl | hmem2
                · refine ⟨hext1, hwfs1, w0, hw0c, ?_⟩
                  have hbody : cl.body = [] :=
                    renameList_eq_nil (List.isEmpty_iff.mp hb)
                  exact @derivable_of_instance kb.clauses cl (hcls cl (List.mem_cons_self _ _))
                    (fun v => Expr.Variable ("_" ++ v ++ Nat.repr (counter + 1))) θ2
                    (by intro b hbm; rw [hbody] at hbm; cases hbm)
                    w0 (by rw [← renameExpr_applyMap]; exact hw0h)
                · exact ihcl kb current rest θ vis (counter + 1) sols2 c4 hkb
                    (fun c hc => hcls c (List.mem_cons_of_mem _ hc)) hrest hθ θ2 hmem2
            | false =>
              simp only [hb, Bool.false_eq_true, if_false] at h
              cases hand : fol_bc_and f kb (renameList (counter + 1) cl.body) θ1 vis (counter + 1) with
              | none => simp [hand] at h
              | some p =>
                obtain ⟨sols1, c3⟩ := p
                simp only [hand] at h
                cases hrest : fol_bc_clauses f kb current rest θ vis c3 with
                | none => simp [hrest] at h
                | some q =>
                  obtain ⟨sols2, c4⟩ := q
                  simp only [hrest, Option.some.injEq, Prod.mk.injEq] at h
                  rw [← h.1] at hθ2
                  rcases List.mem_append.mp hθ2 with hmem1 | hmem2
                  · obtain ⟨hext2, hwfs2, hgoals⟩ :=
                      ihand kb _ θ1 vis (counter + 1) sols1 c3 hkb hand hwfs1 θ2 hmem1
                    refine ⟨hext1.trans hext2, hwfs2, ?_⟩
                    rcases hwfs2.total w0 with ⟨gw, w2, hw2⟩
                    refine ⟨w2, Rsub_lift hw0c hext2 ⟨gw, hw2⟩, ?_⟩
                    refine @derivable_of_instance kb.clauses cl (hcls cl (List.mem_cons_self _ _))
                      (fun v => Expr.Variable ("_" ++ v ++ Nat.repr (counter + 1))) θ2 ?_ w2 ?_
                    · intro b hbm
                      rcases hgoals _ (mem_renameList hbm) with ⟨wb, hwb, hdb⟩
                      rw [← renameExpr_applyMap]
                      exact ⟨wb, hwb, hdb⟩
                    · rw [← renameExpr_applyMap]
                      exact Rsub_lift hw0h hext2 ⟨gw, hw2⟩
                  · exact ihcl kb current rest θ vis c3 sols2 c4 hkb
                      (fun c hc => hcls c (List.mem_cons_of_mem _ hc)) hrest hθ θ2 hmem2
    · -- fol_bc_and
      intro kb goals θ vis counter sols c2 hkb h hθ θ2 hθ2
      cases goals with
      | nil =>
        simp only [fol_bc_and, Option.some.injEq, Prod.mk.injEq] at h
        rw [← h.1] at hθ2
        rcases List.mem_singleton.mp hθ2 with rfl
        exact ⟨SubExt.refl _, hθ, by intro g hg; cases hg⟩
      | cons g rest =>
        cases hor : fol_bc_or f kb g θ vis counter with
        | none => simp [fol_bc_and, hor] at h
        | some p =>
          obtain ⟨sols1, cc⟩ := p
          simp only [fol_bc_and, hor] at h
          have hsols1 := ihor kb g θ vis counter sols1 cc hkb hor hθ
          obtain ⟨θp, hθp, hextp2, hwfs2, hrest⟩ :=
            ihfold kb rest sols1 vis cc sols c2 hkb h
              (fun θp hp => ((hsols1 θp hp).2).1) θ2 hθ2
          obtain ⟨hextθp, _, w, hrw, hder⟩ := hsols1 θp hθp
          refine ⟨hextθp.trans hextp2, hwfs2, ?_⟩
          intro g2 hg2
          rcases List.mem_cons.mp hg2 with rfl | hg2r
          · rcases hwfs2.total w with ⟨gw, w2, hw2⟩
            refine ⟨w2, Rsub_lift hrw hextp2 ⟨gw, hw2⟩, ?_⟩
            have hmap := substitute_applyMap hw2
            rw [hmap]
            exact hder.applyMap _
          · exact hrest g2 hg2r
    · -- fol_bc_and_fold
      intro kb rest θs vis counter sols c2 hkb h hθs θ2 hθ2
      cases θs with
      | nil =>
        simp only [fol_bc_and_fold, Option.some.injEq, Prod.mk.injEq] at h
        rw [← h.1] at hθ2
        cases hθ2
      | cons θp more =>
        cases hand : fol_bc_and f kb rest θp vis counter with
        | none => simp [fol_bc_and_fold, hand] at h
        | some p =>
          obtain ⟨sols1, cb⟩ := p
          simp only [fol_bc_and_fold, hand] at h
          cases hfold : fol_bc_and_fold f kb rest more vis cb with
          | none => simp [hfold] at h
          | some q =>
            obtain ⟨sols2, c3⟩ := q
            simp only [hfold, Option.some.injEq, Prod.mk.injEq] at h
            rw [← h.1] at hθ2
            rcases List.mem_append.mp hθ2 with hmem1 | hmem2
            · obtain ⟨hext, hwfs, hgoals⟩ :=
                ihand kb rest θp vis counter sols1 cb hkb hand
                  (hθs θp (List.mem_cons_self _ _)) θ2 hmem1
              exact ⟨θp, List.mem_cons_self _ _, hext, hwfs, hgoals⟩
            · obtain ⟨θq, hθq, hext, hwfs, hgoals⟩ :=
                ihfold kb rest more vis cb sols2 c3 hkb hfold
                  (fun θq hq => hθs θq (List.mem_cons_of_mem _ hq)) θ2 hmem2
              exact ⟨θq, List.mem_cons_of_mem _ hθq, hext, hwfs, hgoals⟩

/-- Every knowledge base built by `add_clause` calls fetches only stored
clauses. -/
theorem fetchSub_mkKB (cs : List Clause) : FetchSub (mkKB cs) := by
  intro g c hc
  rw [fetch_eq_bucketOf, (kb_index_consistent cs).2] at hc
  rw [(kb_index_consistent cs).1]
  exact List.mem_of_mem_filter hc

/-- C2: monotonic soundness of backward chaining.  Every substitution
yielded by `ask` for a conjunction G, applied to each atom of G, produces
an atom derivable from the clauses of the knowledge base. -/
theorem ask_sound (cs : List Clause) (fuel : Nat) (G : List Expr)
    (sols : List Subst) (θ : Subst)
    (h : askAll (mkKB cs) fuel G = some sols) (hθ : θ ∈ sols) :
    ∀ g ∈ G, ∃ w, Rsub θ g w ∧ Derivable cs w := by
  unfold askAll at h
  cases hrun : fol_bc_and fuel (mkKB cs) G [] [] 0 with
  | none => rw [hrun] at h; exact absurd h (by simp)
  | some p =>
    obtain ⟨sols0, c2⟩ := p
    rw [hrun] at h
    have h2 : sols0 = sols := by simpa using h
    subst h2
    obtain ⟨_, _, hgoals⟩ :=
      (search_sound fuel).2.2.1 (mkKB cs) G [] [] 0 sols0 c2 (fetchSub_mkKB cs)
        hrun WFS_nil θ hθ
    intro g hg
    rcases hgoals g hg with ⟨w, hrw, hder⟩
    rw [(kb_index_consistent cs).1] at hder
    exact ⟨w, hrw, hder⟩

theorem ask_sound_witness :
    ∃ w, Rsub [] (Expr.Predicate "father" [Expr.Constant "abe", Expr.Constant "homer"]) w ∧
      Derivable section8Clauses w :=
  ask_sound section8Clauses 20
    [Expr.Predicate "father" [Expr.Constant "abe", Expr.Constant "homer"]]
    [[]] [] (by decide) (List.mem_singleton.mpr rfl)
    (Expr.Predicate "father" [Expr.Constant "abe", Expr.Constant "homer"])
    (List.mem_singleton.mpr rfl)

/-! ### Fuel monotonicity: a successful run is stable under extra fuel -/

theorem occurs_mono_all : ∀ f : Nat,
    (∀ g var x θ b, f ≤ g → occurs_check f var x θ = some b →
      occurs_check g var x θ = some b) ∧
    (∀ g var l θ b, f ≤ g → occursList f var l θ = some b →
      occursList g var l θ = some b) := by
  intro f
  induction f with
  | zero =>
    constructor
    · intro g var x θ b _ h; simp [occurs_check] at h
    · intro g var l θ b _ h; simp [occursList] at h
  | succ f ih =>
    constructor
    · intro g var x θ b hfg h
      cases g with
      | zero => omega
      | succ g =>
        cases hs : substitute (f + 1) x θ with
        | none => simp [occurs_check, hs] at h
        | some x2 =>
          have hs2 : substitute (g + 1) x θ = some x2 :=
            substitute_mono (by omega) hs
          simp only [occurs_check, hs] at h
          simp only [occurs_check, hs2]
          by_cases hv : var = x2
          · rw [if_pos hv] at h ⊢; exact h
          · rw [if_neg hv] at h ⊢
            cases x2 with
            | Variable n => exact h
            | Constant n => exact h
            | Function n args => exact ih.2 g var args θ b (by omega) h
            | Predicate n args => exact ih.2 g var args θ b (by omega) h
    · intro g var l θ b hfg h
      cases g with
      | zero => omega
      | succ g =>
        cases l with
        | nil => simpa [occursList] using h
        | cons a as =>
          cases ha : occurs_check f var a θ with
          | none => simp [occursList, ha] at h
          | some b1 =>
            have ha2 : occurs_check g var a θ = some b1 :=
              ih.1 g var a θ b1 (by omega) ha
            cases b1 with
            | true =>
              simp only [occursList, ha] at h
              simp only [occursList, ha2]
              exact h
            | false =>
              simp only [occursList, ha] at h
              simp only [occursList, ha2]
              exact ih.2 g var as θ b (by omega) h

theorem occurs_check_mono {f g : Nat} {var x : Expr} {θ : Subst} {b : Bool}
    (hfg : f ≤ g) (h : occurs_check f var x θ = some b) :
    occurs_check g var x θ = some b :=
  (occurs_mono_all f).1 g var x θ b hfg h

theorem unify_mono_all : ∀ f : Nat,
    (∀ g x y θ r, f ≤ g → unify f x y θ = some r → unify g x y θ = some r) ∧
    (∀ g var x θ r, f ≤ g → unify_var f var x θ = some r →
      unify_var g var x θ = some r) ∧
    (∀ g as bs θ r, f ≤ g → unifyArgs f as bs θ = some r →
      unifyArgs g as bs θ = some r) := by
  intro f
  induction f with
  | zero =>
    refine ⟨?_, ?_, ?_⟩
    · intro g x y θ r _ h; simp [unify] at h
    · intro g var x θ r _ h; simp [unify_var] at h
    · intro g as bs θ r _ h; simp [unifyArgs] at h
  | succ f ih =>
    obtain ⟨ihu, ihv, iha⟩ := ih
    refine ⟨?_, ?_, ?_⟩
    · intro g x y θ r hfg h
      cases g with
      | zero => omega
      | succ g =>
        by_cases hxy : x = y
        · simp only [unify, if_pos hxy] at h ⊢; exact h
        · cases hsx : substitute (f + 1) x θ with
          | none =>
            simp only [unify, if_neg hxy, hsx] at h
            exact absurd h (by cases substitute (f + 1) y θ <;> simp)
          | some x2 =>
            cases hsy : substitute (f + 1) y θ with
            | none => simp [unify, if_neg hxy, hsx, hsy] at h
            | some y2 =>
              have hsx2 : substitute (g + 1) x θ = some x2 :=
                substitute_mono (by omega) hsx
              have hsy2 : substitute (g + 1) y θ = some y2 :=
                substitute_mono (by omega) hsy
              simp only [unify, if_neg hxy, hsx, hsy] at h
              simp only [unify, if_neg hxy, hsx2, hsy2]
              cases hvx : is_variable x2 with
              | true =>
                simp only [hvx, if_true] at h ⊢
                exact ihv g x2 y2 θ r (by omega) h
              | false =>
                simp only [hvx, Bool.false_eq_true, if_false] at h ⊢
                cases hvy : is_variable y2 with
                | true =>
                  simp only [hvy, if_true] at h ⊢
                  exact ihv g y2 x2 θ r (by omega) h
                | false =>
                  simp only [hvy, Bool.false_eq_true, if_false] at h ⊢
                  cases x2 with
                  | Variable n1 => exact h
                  | Constant n1 => exact h
                  | Function n1 as =>
                    cases y2 with
                    | Variable n2 => exact h
                    | Constant n2 => exact h
                    | Predicate n2 bs => exact h
                    | Function n2 bs =>
                      have h2 : (if n1 = n2 ∧ as.length = bs.length then
                          unifyArgs f as bs θ else some none) = some r := h
                      show (if n1 = n2 ∧ as.length = bs.length then
                        unifyArgs g as bs θ else some none) = some r
                      by_cases hc : n1 = n2 ∧ as.length = bs.length
                      · rw [if_pos hc] at h2 ⊢
                        exact iha g as bs θ r (by omega) h2
                      · rw [if_neg hc] at h2 ⊢; exact h2
                  | Predicate n1 as =>
                    cases y2 with
                    | Variable n2 => exact h
                    | Constant n2 => exact h
                    | Function n2 bs => exact h
                    | Predicate n2 bs =>
                      have h2 : (if n1 = n2 ∧ as.length = bs.length then
                          unifyArgs f as bs θ else some none) = some r := h
                      show (if n1 = n2 ∧ as.length = bs.length then
                        unifyArgs g as bs θ else some none) = some r
                      by_cases hc : n1 = n2 ∧ as.length = bs.length
                      · rw [if_pos hc] at h2 ⊢
                        exact iha g as bs θ r (by omega) h2
                      · rw [if_neg hc] at h2 ⊢; exact h2
    · intro g var x θ r hfg h
      cases g with
      | zero => omega
      | succ g =>
        cases var with
        | Constant n => simpa [unify_var] using h
        | Function n as => simpa [unify_var] using h
        | Predicate n as => simpa [unify_var] using h
        | Variable n =>
          cases hl : lookupSubst θ n with
          | some t =>
            simp only [unify_var, hl] at h
            simp only [unify_var, hl]
            exact ihu g t x θ r (by omega) h
          | none =>
            cases x with
            | Variable m =>
              cases hlm : lookupSubst θ m with
              | some t =>
                simp only [unify_var, hl, hlm] at h
                simp only [unify_var, hl, hlm]
                exact ihu g (Expr.Variable n) t θ r (by omega) h
              | none =>
                cases hoc : occurs_check (f + 1) (Expr.Variable n)
                    (Expr.Variable m) θ with
                | none => simp [unify_var, hl, hlm, hoc] at h
                | some b =>
                  have hoc2 : occurs_check (g + 1) (Expr.Variable n)
                      (Expr.Variable m) θ = some b :=
                    occurs_check_mono (by omega) hoc
                  cases b with
                  | true =>
                    simp only [unify_var, hl, hlm, hoc] at h
                    simp only [unify_var, hl, hlm, hoc2]
                    exact h
                  | false =>
                    simp only [unify_var, hl, hlm, hoc] at h
                    simp only [unify_var, hl, hlm, hoc2]
                    exact h
            | Constant m =>
              cases hoc : occurs_check (f + 1) (Expr.Variable n)
                  (Expr.Constant m) θ with
              | none => simp [unify_var, hl, hoc] at h
              | some b =>
                have hoc2 : occurs_check (g + 1) (Expr.Variable n)
                    (Expr.Constant m) θ = some b :=
                  occurs_check_mono (by omega) hoc
                cases b with
                | true =>
                  simp only [unify_var, hl, hoc] at h
                  simp only [unify_var, hl, hoc2]
                  exact h
                | false =>
                  simp only [unify_var, hl, hoc] at h
                  simp only [unify_var, hl, hoc2]
                  exact h
            | Function m as =>
              cases hoc : occurs_check (f + 1) (Expr.Variable n)
                  (Expr.Function m as) θ with
              | none => simp [unify_var, hl, hoc] at h
              | some b =>
                have hoc2 : occurs_check (g + 1) (Expr.Variable n)
                    (Expr.Function m as) θ = some b :=
                  occurs_check_mono (by omega) hoc
                cases b with
                | true =>
                  simp only [unify_var, hl, hoc] at h
                  simp only [unify_var, hl, hoc2]
                  exact h
                | false =>
                  simp only [unify_var, hl, hoc] at h
                  simp only [unify_var, hl, hoc2]
                  exact h
            | Predicate m as =>
              cases hoc : occurs_check (f + 1) (Expr.Variable n)
                  (Expr.Predicate m as) θ with
              | none => simp [unify_var, hl, hoc] at h
              | some b =>
                have hoc2 : occurs_check (g + 1) (Expr.Variable n)
                    (Expr.Predicate m as) θ = some b :=
                  occurs_check_mono (by omega) hoc
                cases b with
                | true =>
                  simp only [unify_var, hl, hoc] at h
                  simp only [unify_var, hl, hoc2]
                  exact h
                | false =>
                  simp only [unify_var, hl, hoc] at h
                  simp only [unify_var, hl, hoc2]
                  exact h
    · intro g as bs θ r hfg h
      cases g with
      | zero => omega
      | succ g =>
        cases as with
        | nil => simpa [unifyArgs] using h
        | cons a as2 =>
          cases bs with
          | nil => simpa [unifyArgs] using h
          | cons b bs2 =>
            cases hu : unify f a b θ with
            | none => simp [unifyArgs, hu] at h
            | some o =>
              have hu2 : unify g a b θ = some o := ihu g a b θ o (by omega) hu
              cases o with
              | none =>
                simp only [unifyArgs, hu] at h
                simp only [unifyArgs, hu2]
                exact h
              | some θ2 =>
                simp only [unifyArgs, hu] at h
                simp only [unifyArgs, hu2]
                exact iha g as2 bs2 θ2 r (by omega) h

theorem unify_mono {f g : Nat} {x y : Expr} {θ : Subst} {r : Option Subst}
    (hfg : f ≤ g) (h : unify f x y θ = some r) : unify g x y θ = some r :=
  (unify_mono_all f).1 g x y θ r hfg h

theorem fol_bc_mono_all : ∀ f : Nat,
    (∀ g kb goal θ vis counter r, f ≤ g →
      fol_bc_or f kb goal θ vis counter = some r →
      fol_bc_or g kb goal θ vis counter = some r) ∧
    (∀ g kb current cls θ vis counter r, f ≤ g →
      fol_bc_clauses f kb current cls θ vis counter = some r →
      fol_bc_clauses g kb current cls θ vis counter = some r) ∧
    (∀ g kb goals θ vis counter r, f ≤ g →
      fol_bc_and f kb goals θ vis counter = some r →
      fol_bc_and g kb goals θ vis counter = some r) ∧
    (∀ g kb rest θs vis counter r, f ≤ g →
      fol_bc_and_fold f kb rest θs vis counter = some r →
      fol_bc_and_fold g kb rest θs vis counter = some r) := by
  intro f
  induction f with
  | zero =>
    refine ⟨?_, ?_, ?_, ?_⟩
    · intro g kb goal θ vis counter r _ h; simp [fol_bc_or] at h
    · intro g kb current cls θ vis counter r _ h; simp [fol_bc_clauses] at h
    · intro g kb goals θ vis counter r _ h; simp [fol_bc_and] at h
    · intro g kb rest θs vis counter r _ h; simp [fol_bc_and_fold] at h
  | succ f ih =>
    obtain ⟨ihor, ihcl, ihand, ihfold⟩ := ih
    refine ⟨?_, ?_, ?_, ?_⟩
    · intro g kb goal θ vis counter r hfg h
      cases g with
      | zero => omega
      | succ g =>
        cases hs : substitute (f + 1) goal θ with
        | none => simp [fol_bc_or, hs] at h
        | some current =>
          have hs2 : substitute (g + 1) goal θ = some current :=
            substitute_mono (by omega) hs
          simp only [fol_bc_or, hs] at h
          simp only [fol_bc_or, hs2]
          cases hv : visitedMem (reprE current, θ) vis with
          | true => simp only [hv, if_true] at h ⊢; exact h
          | false =>
            simp only [hv, Bool.false_eq_true, if_false] at h ⊢
            exact ihcl g kb current _ θ _ counter r (by omega) h
    · intro g kb current cls θ vis counter r hfg h
      cases g with
      | zero => omega
      | succ g =>
        cases cls with
        | nil => simpa [fol_bc_clauses] using h
        | cons cl rest =>
          cases hu : unify (f + 1) (renameExpr (counter + 1) cl.head) current θ with
          | none => simp [fol_bc_clauses, standardize_apart, hu] at h
          | some o =>
            have hu2 : unify (g + 1) (renameExpr (counter + 1) cl.head) current θ
                = some o := unify_mono (by omega) hu
            cases o with
            | none =>
              simp only [fol_bc_clauses, standardize_apart, hu] at h
              simp only [fol_bc_clauses, standardize_apart, hu2]
              exact ihcl g kb current rest θ vis (counter + 1) r (by omega) h
            | some θ2 =>
              simp only [fol_bc_clauses, standardize_apart, hu] at h
              simp only [fol_bc_clauses, standardize_apart, hu2]
              cases hb : (renameList (counter + 1) cl.body).isEmpty with
              | true =>
                simp only [hb, if_true] at h ⊢
                cases hrest : fol_bc_clauses f kb current rest θ vis (counter + 1) with
                | none => simp [hrest] at h
                | some q =>
                  simp only [hrest] at h
                  simp only [ihcl g kb current rest θ vis (counter + 1) q
                    (by omega) hrest]
                  exact h
              | false =>
                simp only [hb, Bool.false_eq_true, if_false] at h ⊢
                cases hand : fol_bc_and f kb (renameList (counter + 1) cl.body)
                    θ2 vis (counter + 1) with
                | none => simp [hand] at h
                | some p =>
                  obtain ⟨sols1, c3⟩ := p
                  simp only [hand] at h
                  simp only [ihand g kb (renameList (counter + 1) cl.body)
                    θ2 vis (counter + 1) (sols1, c3) (by omega) hand]
                  cases hrest : fol_bc_clauses f kb current rest θ vis c3 with
                  | none => simp [hrest] at h
                  | some q =>
                    simp only [hrest] at h
                    simp only [ihcl g kb current rest θ vis c3 q (by omega) hrest]
                    exact h
    · intro g kb goals θ vis counter r hfg h
      cases g with
      | zero => omega
      | succ g =>
        cases goals with
        | nil => simpa [fol_bc_and] using h
        | cons g0 rest =>
          cases hor : fol_bc_or f kb g0 θ vis counter with
          | none => simp [fol_bc_and, hor] at h
          | some p =>
            obtain ⟨sols1, c2⟩ := p
            simp only [fol_bc_and, hor] at h
            simp only [fol_bc_and,
              ihor g kb g0 θ vis counter (sols1, c2) (by omega) hor]
            exact ihfold g kb rest sols1 vis c2 r (by omega) h
    · intro g kb rest θs vis counter r hfg h
      cases g with
      | zero => omega
      | succ g =>
        cases θs with
        | nil => simpa [fol_bc_and_fold] using h
        | cons θp more =>
          cases hand : fol_bc_and f kb rest θp vis counter with
          | none => simp [fol_bc_and_fold, hand] at h
          | some p =>
            obtain ⟨sols1, c2⟩ := p
            simp only [fol_bc_and_fold, hand] at h
            simp only [fol_bc_and_fold,
              ihand g kb rest θp vis counter (sols1, c2) (by omega) hand]
            cases hfold : fol_bc_and_fold f kb rest more vis c2 with
            | none => simp [hfold] at h
            | some q =>
              simp only [hfold] at h
              simp only [ihfold g kb rest more vis c2 q (by omega) hfold]
              exact h

theorem fol_bc_or_mono {f g : Nat} {kb : KnowledgeBase} {goal : Expr}
    {θ : Subst} {vis : List VisitKey} {counter : Nat} {r : List Subst × Nat}
    (hfg : f ≤ g) (h : fol_bc_or f kb goal θ vis counter = some r) :
    fol_bc_or g kb goal θ vis counter = some r :=
  (fol_bc_mono_all f).1 g kb goal θ vis counter r hfg h

/-- C8 (refuted: the code is incomplete even on an acyclic ground knowledge
base).  `csC8` is acyclic and all its clauses are ground, the goal `Pc8`
has a one-step ground proof, yet `ask` terminates yielding no substitution
at every fuel: the visited-set key uses the ambiguous `repr` string, under
which the subgoal `Qc8` collides with the root goal `Pc8` and is pruned. -/
theorem ask_incomplete_on_acyclic_kb :
    AcyclicKB csC8 ∧ csC8.all groundClause = true ∧ Derivable csC8 Pc8 ∧
    ∀ fuel sols, ask (mkKB csC8) fuel Pc8 = some sols → sols = [] := by
  refine ⟨⟨fun n => if n = "p" then 1 else 0, by decide⟩, by decide, ?_, ?_⟩
  · have hQ : Derivable csC8 Qc8 :=
      @Derivable.step csC8 ⟨Qc8, []⟩ Expr.Variable
        (List.mem_cons_of_mem _ (List.mem_cons_self _ _))
        (fun b hb => absurd hb (List.not_mem_nil b))
    exact @Derivable.step csC8 ⟨Pc8, [Qc8]⟩ Expr.Variable
      (List.mem_cons_self _ _)
      (fun b hb => by rcases List.mem_singleton.mp hb with rfl; exact hQ)
  · intro fuel sols h
    unfold ask at h
    cases hrun : fol_bc_or fuel (mkKB csC8) Pc8 [] [] 0 with
    | none => rw [hrun] at h; exact absurd h (by simp)
    | some p =>
      obtain ⟨sols0, c⟩ := p
      rw [hrun] at h
      have hs : sols0 = sols := by simpa using h
      subst hs
      have h1 : fol_bc_or (max fuel 10) (mkKB csC8) Pc8 [] [] 0 = some (sols0, c) :=
        fol_bc_or_mono (Nat.le_max_left _ _) hrun
      have h2 : fol_bc_or 10 (mkKB csC8) Pc8 [] [] 0 = some ([], 1) := by decide
      have h3 : fol_bc_or (max fuel 10) (mkKB csC8) Pc8 [] [] 0 = some ([], 1) :=
        fol_bc_or_mono (Nat.le_max_right _ _) h2
      rw [h1] at h3
      exact congrArg Prod.fst (Option.some.inj h3)

end BC
